import Mathlib

/-!
Verification of the V8 safepoint table builder and reader
(`src/deps/v8/src/codegen/safepoint-table.cc`).

The builder accumulates per-safepoint entries (pc offset, optional
deopt index / trampoline pc, register mask, tagged stack-slot indexes),
deduplicates adjacent identical entries, trims an unused low range of
slot indexes, derives per-field byte widths and serializes a compact
little-endian table.  The reader decodes the bytes and performs point
lookup by pc offset, with a trampoline-aware candidate scan.

Conventions of the embedding:
* C `int` values are modelled as `Int` (the sentinels `kNoTrampolinePC`
  and `kNoDeoptIndex` are `-1`); the `uint32_t` register mask is `Nat`.
* The byte stream is `List Nat`, each element a byte value `< 256`.
* Fatal `CHECK` failure in `Emit` is modelled by an `Option` result.
* All quantities that the C++ contract guarantees nonnegative
  (pc offsets, slot indexes, `tagged_slots_size`) carry explicit
  nonnegativity hypotheses in the theorems; divisions only ever happen
  on nonnegative values, where C and Lean division agree.
-/

/-- One builder entry (`SafepointTableBuilder::EntryBuilder`).
`stack_indexes` is the `ZoneChunkList<int>` of tagged stack-slot
indexes in registration order; `register_indexes` is the register
bitmask; `trampoline` and `deopt_index` are `-1` when absent. -/
structure EntryBuilder where
  pc : Int
  trampoline : Int
  deopt_index : Int
  register_indexes : Nat
  stack_indexes : List Int
deriving DecidableEq, Repr

/-- Mergeability test of `RemoveDuplicates` (`is_identical_except_for_pc`):
equal `deopt_index`, stack-index lists of equal size that are elementwise
equal (`std::equal` over the two sequences), and equal register mask. -/
def is_identical_except_for_pc (entry1 entry2 : EntryBuilder) : Bool :=
  entry1.deopt_index == entry2.deopt_index &&
  entry1.stack_indexes.length == entry2.stack_indexes.length &&
  entry1.stack_indexes == entry2.stack_indexes &&
  entry1.register_indexes == entry2.register_indexes

/-- The compaction loop of `RemoveDuplicates`: each subsequent entry is
compared against the most recently kept entry (`*remaining_it`) and
dropped when `is_identical_except_for_pc` holds, otherwise kept and made
the new comparison basis. -/
def dedupScan (kept : EntryBuilder) : List EntryBuilder → List EntryBuilder
  | [] => []
  | e :: rest =>
    if is_identical_except_for_pc e kept then dedupScan kept rest
    else e :: dedupScan e rest

/-- `SafepointTableBuilder::RemoveDuplicates`.  (The `size < 2` early
return of the source is semantics-preserving: on lists of length `< 2`
the loop below keeps everything.) -/
def removeDuplicates : List EntryBuilder → List EntryBuilder
  | [] => []
  | e :: rest => e :: dedupScan e rest

/-- The minimum-index scan of `TrimEntries`: running minimum over all
referenced stack-slot indexes, starting from `tagged_slots_size`, with
the early exit of the source (`return`, modelled as `none`) as soon as an
index `0` is seen below the running minimum. -/
def scanMinIndex : List Int → Int → Option Int
  | [], min_index => some min_index
  | idx :: rest, min_index =>
    if idx ≥ min_index then scanMinIndex rest min_index
    else if idx = 0 then none
    else scanMinIndex rest idx

/-- `SafepointTableBuilder::TrimEntries`: compute the minimum referenced
stack-slot index (starting from `tagged_slots_size`); if the scan did not
early-exit (at `tagged_slots_size = 0` or at a referenced index `0`),
subtract the minimum from `tagged_slots_size` and from every index. -/
def trimEntries (tagged_slots_size : Int) (entries : List EntryBuilder) :
    Int × List EntryBuilder :=
  if tagged_slots_size = 0 then (tagged_slots_size, entries)
  else
    match scanMinIndex (entries.flatMap (fun e => e.stack_indexes)) tagged_slots_size with
    | none => (tagged_slots_size, entries)
    | some min_index =>
      (tagged_slots_size - min_index,
       entries.map (fun e =>
         { e with stack_indexes := e.stack_indexes.map (fun idx => idx - min_index) }))

/-- The width-derivation lambda `value_to_bytes` in `Emit`: `0` for value
`0`, otherwise the number of bytes among `1..4` needed for the value. -/
def value_to_bytes (value : Int) : Nat :=
  if value = 0 then 0
  else if value ≤ 0xff then 1
  else if value ≤ 0xffff then 2
  else if value ≤ 0xffffff then 3
  else 4

/-- Little-endian byte emission (`emit_bytes` in `Emit`): emit `k` bytes,
least significant first. -/
def leBytes : Nat → Nat → List Nat
  | _, 0 => []
  | v, k + 1 => v % 256 :: leBytes (v / 256) k

/-- Little-endian byte emission of a (nonnegative) `int` value. -/
def emit_bytes (value : Int) (bytes : Nat) : List Nat :=
  leBytes value.toNat bytes

/-- The derived entry configuration of `Emit`: the `has_deopt_data` flag
and the four byte widths. -/
structure EmitConfig where
  has_deopt_data : Bool
  register_indexes_size : Nat
  pc_size : Nat
  deopt_index_size : Nat
  tagged_slots_bytes : Nat
deriving DecidableEq, Repr

/-- Width derivation of `Emit`: fold `used_register_indexes`, `max_pc`
(over both `pc` and `trampoline`) and `max_deopt_index` over the entries,
then apply `value_to_bytes` (with the `+ 1` bias making all stored values
nonnegative) and round `tagged_slots_size` up to bytes.
`tagged_slots_size` is a nonnegative `int` by contract, where C integer
division agrees with `Nat` division.
The `used_register_indexes` accumulator of `Emit`: bitwise OR of all
register masks, starting from `0`. -/
def usedRegisterIndexes (entries : List EntryBuilder) : Nat :=
  entries.foldl (fun acc e => acc ||| e.register_indexes) 0

/-- The `max_pc` accumulator of `Emit`: maximum of `pc` and `trampoline`
over all entries, starting from `-1`. -/
def maxPcValue (entries : List EntryBuilder) : Int :=
  entries.foldl (fun acc e => max acc (max e.pc e.trampoline)) (-1)

/-- The `max_deopt_index` accumulator of `Emit`. -/
def maxDeoptIndexValue (entries : List EntryBuilder) : Int :=
  entries.foldl (fun acc e => max acc e.deopt_index) (-1)

def deriveEmitConfig (entries : List EntryBuilder) (tagged_slots_size : Int) : EmitConfig :=
  { has_deopt_data := maxDeoptIndexValue entries != -1
    register_indexes_size := value_to_bytes (Int.ofNat (usedRegisterIndexes entries))
    pc_size := value_to_bytes (maxPcValue entries + 1)
    deopt_index_size := value_to_bytes (maxDeoptIndexValue entries + 1)
    tagged_slots_bytes := (tagged_slots_size.toNat + 8 - 1) / 8 }

/-- Modelled from the spec: the packed configuration word of the table
header (the `base::BitField` layout lives in `safepoint-table.h`, which
is not part of this repository snapshot).  Per the spec the word packs
`has_deopt_data` (1 bit) and the three sizes, each of which "encodes
0..4" and therefore occupies 3 bits, followed by `tagged_slots_bytes`
(22 bits): bit 0 `has_deopt_data`, bits 1-3 `register_indexes_size`,
bits 4-6 `pc_size`, bits 7-9 `deopt_index_size`, bits 10-31
`tagged_slots_bytes`. -/
def encodeConfig (c : EmitConfig) : Nat :=
  (if c.has_deopt_data then 1 else 0) +
  c.register_indexes_size * 2 +
  c.pc_size * 2 ^ 4 +
  c.deopt_index_size * 2 ^ 7 +
  c.tagged_slots_bytes * 2 ^ 10

/-- Modelled from the spec: the `is_valid` capacity check of the
configuration-word bit fields (`CHECK` in `Emit`): each size must fit
its allotted bits of the configuration word. -/
def configValid (c : EmitConfig) : Bool :=
  c.register_indexes_size < 2 ^ 3 &&
  c.pc_size < 2 ^ 3 &&
  c.deopt_index_size < 2 ^ 3 &&
  c.tagged_slots_bytes < 2 ^ 22

/-- One serialized entry record of `Emit`: `pc`, then (only with deopt
data) `deopt_index + 1` and `trampoline + 1`, then the register mask,
each little-endian at its derived width, no padding. -/
def entryRecordBytes (c : EmitConfig) (e : EntryBuilder) : List Nat :=
  emit_bytes e.pc c.pc_size ++
  (if c.has_deopt_data then
    emit_bytes (e.deopt_index + 1) c.deopt_index_size ++
    emit_bytes (e.trampoline + 1) c.pc_size
  else []) ++
  emit_bytes (Int.ofNat e.register_indexes) c.register_indexes_size

/-- The tagged-slot bitmap of one entry in `Emit`: a zeroed byte vector
of length `tagged_slots_bytes` in which, for each registered index
`idx`, bit `(tagged_slots_size - 1 - idx) % 8` of byte
`(tagged_slots_size - 1 - idx) / 8` is set. -/
def entryBitmapBytes (tagged_slots_size : Int) (c : EmitConfig) (e : EntryBuilder) :
    List Nat :=
  e.stack_indexes.foldl
    (fun bits idx =>
      let index := (tagged_slots_size - 1 - idx).toNat
      bits.set (index / 8) (bits.getD (index / 8) 0 ||| 1 <<< (index % 8)))
    (List.replicate c.tagged_slots_bytes 0)

/-- The serialization step of `Emit` (after deduplication and trimming):
4-byte length, 4-byte configuration word, the fixed-width entry records,
then one tagged-slot bitmap per entry. -/
def serializeBytes (entries : List EntryBuilder) (tagged_slots_size : Int) : List Nat :=
  let c := deriveEmitConfig entries tagged_slots_size
  leBytes entries.length 4 ++
  leBytes (encodeConfig c) 4 ++
  (entries.map (entryRecordBytes c)).flatten ++
  (entries.map (entryBitmapBytes tagged_slots_size c)).flatten

/-- `SafepointTableBuilder::Emit`: deduplicate, trim, derive the field
widths, perform the unconditional capacity `CHECK` (modelled as `none`
on failure), and serialize.  Alignment padding and assembler bookkeeping
are outside the byte content of the table and are not modelled. -/
def Emit (entries : List EntryBuilder) (tagged_slots_size : Int) : Option (List Nat) :=
  let entries1 := removeDuplicates entries
  let trimmed := trimEntries tagged_slots_size entries1
  let c := deriveEmitConfig trimmed.2 trimmed.1
  if configValid c then some (serializeBytes trimmed.2 trimmed.1) else none

/-- Emission with the `TrimEntries` step skipped, used to state
byte-identity of trimmed and untrimmed output when the minimum
referenced slot index is `0`. -/
def EmitUntrimmed (entries : List EntryBuilder) (tagged_slots_size : Int) :
    Option (List Nat) :=
  let entries1 := removeDuplicates entries
  let c := deriveEmitConfig entries1 tagged_slots_size
  if configValid c then some (serializeBytes entries1 tagged_slots_size) else none

/-! ## Reader -/

/-- One decoded safepoint entry (`SafepointEntry` view of the reader):
`trampoline_pc` and `deopt_index` are `-1` when absent, and
`tagged_slots` is the raw bitmap byte slice of the entry. -/
structure SafepointEntry where
  pc : Int
  trampoline_pc : Int
  deopt_index : Int
  tagged_register_indexes : Nat
  tagged_slots : List Nat
deriving DecidableEq, Repr

/-- Little-endian read of `k` bytes at byte offset `off`. -/
def readLE (bytes : List Nat) (off k : Nat) : Nat :=
  ((bytes.drop off).take k).foldr (fun b acc => b + 256 * acc) 0

/-- The `length` header field (offset 0, 4 bytes). -/
def tableLength (bytes : List Nat) : Nat :=
  readLE bytes 0 4

/-- The packed `entry_configuration` header field (offset 4, 4 bytes). -/
def tableConfig (bytes : List Nat) : Nat :=
  readLE bytes 4 4

/-- Modelled from the spec: decoding the `has_deopt_data` bit of the
configuration word (accessors live in the missing `safepoint-table.h`). -/
def cfgHasDeoptData (config : Nat) : Bool :=
  config % 2 == 1

/-- Modelled from the spec: decoding `register_indexes_size` (bits 1-3)
of the configuration word. -/
def cfgRegisterIndexesSize (config : Nat) : Nat :=
  config / 2 % 2 ^ 3

/-- Modelled from the spec: decoding `pc_size` (bits 4-6) of the
configuration word. -/
def cfgPcSize (config : Nat) : Nat :=
  config / 2 ^ 4 % 2 ^ 3

/-- Modelled from the spec: decoding `deopt_index_size` (bits 7-9) of
the configuration word. -/
def cfgDeoptIndexSize (config : Nat) : Nat :=
  config / 2 ^ 7 % 2 ^ 3

/-- Modelled from the spec: decoding `tagged_slots_bytes` (bits 10-31)
of the configuration word. -/
def cfgTaggedSlotsBytes (config : Nat) : Nat :=
  config / 2 ^ 10 % 2 ^ 22

/-- Byte size of one serialized entry record, derived from the
configuration word. -/
def entryRecordSize (config : Nat) : Nat :=
  cfgPcSize config +
  (if cfgHasDeoptData config then cfgDeoptIndexSize config + cfgPcSize config else 0) +
  cfgRegisterIndexesSize config

/-- Modelled from the spec: `SafepointTable::GetEntry` (declared in the
missing `safepoint-table.h`), the random-access decode of entry `index`:
read `pc`, the optional biased `deopt_index + 1` and `trampoline + 1`,
and the register mask from the fixed-width record, and slice the tagged-slot bitmap of the entry from behind the record array. -/
def GetEntry (bytes : List Nat) (index : Nat) : SafepointEntry :=
  let config := tableConfig bytes
  let rs := entryRecordSize config
  let base := 8 + index * rs
  let pcs := cfgPcSize config
  let bitmap := (bytes.drop (8 + tableLength bytes * rs +
    index * cfgTaggedSlotsBytes config)).take (cfgTaggedSlotsBytes config)
  if cfgHasDeoptData config then
    { pc := Int.ofNat (readLE bytes base pcs)
      deopt_index := Int.ofNat (readLE bytes (base + pcs) (cfgDeoptIndexSize config)) - 1
      trampoline_pc :=
        Int.ofNat (readLE bytes (base + pcs + cfgDeoptIndexSize config) pcs) - 1
      tagged_register_indexes :=
        readLE bytes (base + pcs + cfgDeoptIndexSize config + pcs)
          (cfgRegisterIndexesSize config)
      tagged_slots := bitmap }
  else
    { pc := Int.ofNat (readLE bytes base pcs)
      deopt_index := -1
      trampoline_pc := -1
      tagged_register_indexes := readLE bytes (base + pcs) (cfgRegisterIndexesSize config)
      tagged_slots := bitmap }

/-- All entries of a serialized table, in index order. -/
def decodeTable (bytes : List Nat) : List SafepointEntry :=
  (List.range (tableLength bytes)).map (GetEntry bytes)

/-- The trampoline candidate scan of `SafepointTable::FindEntry`: keep
the last entry (in index order) whose trampoline is defined and
`≤ pc_offset`, breaking as soon as a trampoline exceeds `pc_offset`. -/
def trampolineScan : List SafepointEntry → Int → Option SafepointEntry →
    Option SafepointEntry
  | [], _, candidate => candidate
  | e :: rest, pc_offset, candidate =>
    let candidate1 :=
      if e.trampoline_pc ≠ -1 ∧ e.trampoline_pc ≤ pc_offset then some e else candidate
    if e.trampoline_pc > pc_offset then candidate1
    else trampolineScan rest pc_offset candidate1

/-- The linear pc scan of `SafepointTable::FindEntry`: return entry `i`
as soon as `i` is the last entry or entry `i+1` has `pc > pc_offset`
(`none` models the `UNREACHABLE` fall-through of an empty table). -/
def findLinear : List SafepointEntry → Int → Option SafepointEntry
  | [], _ => none
  | [e], _ => some e
  | e :: e2 :: rest, pc_offset =>
    if e2.pc > pc_offset then some e else findLinear (e2 :: rest) pc_offset

/-- The body of `SafepointTable::FindEntry` on the decoded entry list:
when the table has deopt data, a trampoline candidate (if any) is
returned immediately; otherwise fall back to the linear pc scan. -/
def findEntryCore (has_deopt_data : Bool) (entries : List SafepointEntry)
    (pc_offset : Int) : Option SafepointEntry :=
  match (if has_deopt_data then trampolineScan entries pc_offset none else none) with
  | some c => some c
  | none => findLinear entries pc_offset

/-- `SafepointTable::FindEntry` over the serialized bytes, with the
instruction-start subtraction already applied (the argument is the pc
offset). -/
def FindEntry (bytes : List Nat) (pc_offset : Int) : Option SafepointEntry :=
  findEntryCore (cfgHasDeoptData (tableConfig bytes)) (decodeTable bytes) pc_offset

/-- Modelled from the spec: whether decoded slot index `slot` is live in
the bitmap of an entry, i.e. whether bit `(tagged_slots_size - 1 - slot) % 8`
of byte `(tagged_slots_size - 1 - slot) / 8` is set (bit layout of
§4.1 step 5 of the spec; the reader-side accessor lives in the missing
`safepoint-table.h`). -/
def slotBit (tagged_slots : List Nat) (tagged_slots_size slot : Int) : Bool :=
  Nat.testBit (tagged_slots.getD ((tagged_slots_size - 1 - slot).toNat / 8) 0)
    ((tagged_slots_size - 1 - slot).toNat % 8)

/-- Byte size of one entry record, from the emit-side configuration. -/
def recordSizeOf (c : EmitConfig) : Nat :=
  c.pc_size +
  (if c.has_deopt_data then c.deopt_index_size + c.pc_size else 0) +
  c.register_indexes_size

/-- Bounds on the builder entries under which serialization round-trips:
the numeric contract of the C `int`/`uint32_t` fields plus validity of
the stack-slot indexes against `tagged_slots_size`. -/
def EntryBounds (tagged_slots_size : Int) (l : List EntryBuilder) : Prop :=
  ∀ e ∈ l, 0 ≤ e.pc ∧ e.pc < 2 ^ 31 ∧
    -1 ≤ e.trampoline ∧ e.trampoline < 2 ^ 31 ∧
    -1 ≤ e.deopt_index ∧ e.deopt_index < 2 ^ 31 ∧
    e.register_indexes < 2 ^ 31 ∧
    ∀ idx ∈ e.stack_indexes, 0 ≤ idx ∧ idx < tagged_slots_size

/-- Expected decoded view of one builder entry: what the reader should
recover for an entry serialized under configuration `c`. -/
def decodedOf (c : EmitConfig) (tagged_slots_size : Int) (e : EntryBuilder) :
    SafepointEntry :=
  { pc := e.pc
    trampoline_pc := if c.has_deopt_data then e.trampoline else -1
    deopt_index := if c.has_deopt_data then e.deopt_index else -1
    tagged_register_indexes := e.register_indexes
    tagged_slots := entryBitmapBytes tagged_slots_size c e }

/-- Bit `j % 8` of byte `j / 8` — the absolute-bit view of a byte list. -/
def getBitAt (bytes : List Nat) (j : Nat) : Bool :=
  Nat.testBit (bytes.getD (j / 8) 0) (j % 8)

/-- The linear pc scan of `FindEntry`, at the builder level (used to
relate the reader scan over decoded entries to the builder entry
list). -/
def coverScan : List EntryBuilder → Int → Option EntryBuilder
  | [], _ => none
  | [e], _ => some e
  | e :: e2 :: rest, pc_offset =>
    if e2.pc > pc_offset then some e else coverScan (e2 :: rest) pc_offset

/-- The uniform amount by which the `Emit` pipeline trims stack-slot
indexes: the input `tagged_slots_size` minus the trimmed one. -/
def trimmedBy (entries : List EntryBuilder) (tagged_slots_size : Int) : Int :=
  tagged_slots_size - (trimEntries tagged_slots_size (removeDuplicates entries)).1

/-! ## Byte-level lemmas -/

theorem length_leBytes (v k : Nat) : (leBytes v k).length = k := by
  induction k generalizing v with
  | zero => rfl
  | succ k ih => simp [leBytes, ih]

theorem foldr_leBytes (v k : Nat) (h : v < 256 ^ k) :
    (leBytes v k).foldr (fun b acc => b + 256 * acc) 0 = v := by
  induction k generalizing v with
  | zero => simp [leBytes]; omega
  | succ k ih =>
    have hdiv : v / 256 < 256 ^ k := by
      rw [Nat.div_lt_iff_lt_mul (by norm_num)]
      calc v < 256 ^ (k + 1) := h
        _ = 256 ^ k * 256 := by ring
    simp only [leBytes, List.foldr_cons, ih (v / 256) hdiv]
    omega

theorem readLE_self (bytes : List Nat) (k : Nat) (h : bytes.length ≤ k) :
    readLE bytes 0 k = bytes.foldr (fun b acc => b + 256 * acc) 0 := by
  unfold readLE
  rw [List.drop_zero, List.take_of_length_le h]

theorem readLE_leBytes (v k : Nat) (h : v < 256 ^ k) :
    readLE (leBytes v k) 0 k = v := by
  rw [readLE_self _ _ (by rw [length_leBytes]), foldr_leBytes v k h]

theorem readLE_append_right (a b : List Nat) (off k : Nat) :
    readLE (a ++ b) (a.length + off) k = readLE b off k := by
  unfold readLE
  rw [List.drop_append]

theorem readLE_append_left (a b : List Nat) (off k : Nat) (h : off + k ≤ a.length) :
    readLE (a ++ b) off k = readLE a off k := by
  unfold readLE
  rw [List.drop_append_of_le_length (by omega),
    List.take_append_of_le_length (by simp [List.length_drop]; omega)]

theorem readLE_leBytes_append (v k : Nat) (rest : List Nat) (h : v < 256 ^ k) :
    readLE (leBytes v k ++ rest) 0 k = v := by
  rw [readLE_append_left _ _ _ _ (by rw [length_leBytes]; omega), readLE_leBytes v k h]

theorem flatten_drop_const (L : Nat) (ls : List (List Nat))
    (h : ∀ l ∈ ls, l.length = L) (i : Nat) :
    ls.flatten.drop (i * L) = (ls.drop i).flatten := by
  induction i generalizing ls with
  | zero => simp
  | succ i ih =>
    cases ls with
    | nil => simp
    | cons x t =>
      have hx : x.length = L := h x (by simp)
      have ht : ∀ l ∈ t, l.length = L := fun l hl => h l (by simp [hl])
      calc (x :: t).flatten.drop ((i + 1) * L)
          = (x ++ t.flatten).drop (x.length + i * L) := by
            rw [List.flatten_cons, hx]; ring_nf
        _ = t.flatten.drop (i * L) := List.drop_append (i * L)
        _ = (t.drop i).flatten := ih t ht

theorem flatten_length_const (L : Nat) (ls : List (List Nat))
    (h : ∀ l ∈ ls, l.length = L) : ls.flatten.length = ls.length * L := by
  induction ls with
  | nil => simp
  | cons x t ih =>
    simp only [List.flatten_cons, List.length_append, h x (by simp),
      ih (fun l hl => h l (by simp [hl])), List.length_cons]
    ring

theorem readLE_flatten_const (L : Nat) (ls : List (List Nat))
    (h : ∀ l ∈ ls, l.length = L) (i o k : Nat) (hi : i < ls.length) (ho : o + k ≤ L) :
    readLE ls.flatten (i * L + o) k = readLE (ls.get ⟨i, hi⟩) o k := by
  unfold readLE
  have hmem : ls[i] ∈ ls := List.getElem_mem hi
  have hlen : ls[i].length = L := h _ hmem
  rw [← List.drop_drop, flatten_drop_const L ls h i, List.drop_eq_getElem_cons hi,
    List.flatten_cons, List.get_eq_getElem,
    List.drop_append_of_le_length (by omega),
    List.take_append_of_le_length (by rw [List.length_drop, hlen]; omega)]

theorem readLE_flatten_append (L : Nat) (ls : List (List Nat)) (rest : List Nat)
    (h : ∀ l ∈ ls, l.length = L) (i o k : Nat) (hi : i < ls.length) (ho : o + k ≤ L) :
    readLE (ls.flatten ++ rest) (i * L + o) k = readLE (ls.get ⟨i, hi⟩) o k := by
  rw [readLE_append_left, readLE_flatten_const L ls h i o k hi ho]
  rw [flatten_length_const L ls h]
  have h1 : (i + 1) * L ≤ ls.length * L := Nat.mul_le_mul_right L (by omega)
  have h2 : i * L + o + k ≤ (i + 1) * L := by
    have : (i + 1) * L = i * L + L := by ring
    omega
  omega

/-! ## Width derivation bounds -/

theorem value_to_bytes_le_four (v : Int) : value_to_bytes v ≤ 4 := by
  unfold value_to_bytes
  split
  · omega
  · split
    · omega
    · split
      · omega
      · split <;> omega

theorem value_to_bytes_fit (w v : Int) (hw : 0 ≤ w) (hwv : w ≤ v)
    (hv : v ≤ 0xffffffff) : w.toNat < 256 ^ value_to_bytes v := by
  unfold value_to_bytes
  split
  · norm_num; omega
  · split
    · norm_num; omega
    · split
      · norm_num; omega
      · split
        · norm_num; omega
        · norm_num; omega

theorem foldl_max_ge_init (f : EntryBuilder → Int) (l : List EntryBuilder) (init : Int) :
    init ≤ l.foldl (fun acc e => max acc (f e)) init := by
  induction l generalizing init with
  | nil => simp
  | cons e rest ih =>
    simp only [List.foldl_cons]
    exact le_trans (le_max_left _ _) (ih (max init (f e)))

theorem foldl_max_ge_mem (f : EntryBuilder → Int) (l : List EntryBuilder) (init : Int)
    (e : EntryBuilder) (he : e ∈ l) :
    f e ≤ l.foldl (fun acc e => max acc (f e)) init := by
  induction l generalizing init with
  | nil => cases he
  | cons x rest ih =>
    simp only [List.foldl_cons]
    rcases List.mem_cons.mp he with h | h
    · subst h
      exact le_trans (le_max_right _ _) (foldl_max_ge_init f rest _)
    · exact ih _ h

theorem foldl_max_le (f : EntryBuilder → Int) (l : List EntryBuilder) (init B : Int)
    (hinit : init ≤ B) (h : ∀ e ∈ l, f e ≤ B) :
    l.foldl (fun acc e => max acc (f e)) init ≤ B := by
  induction l generalizing init with
  | nil => simpa using hinit
  | cons x rest ih =>
    simp only [List.foldl_cons]
    exact ih _ (max_le hinit (h x (by simp))) (fun e he => h e (by simp [he]))

theorem or_lt_two_pow (a b n : Nat) (ha : a < 2 ^ n) (hb : b < 2 ^ n) :
    a ||| b < 2 ^ n := by
  apply Nat.lt_pow_two_of_testBit
  intro i hi
  have h2 : (2 : Nat) ^ n ≤ 2 ^ i := Nat.pow_le_pow_right (by omega) hi
  rw [Nat.testBit_or, Nat.testBit_lt_two_pow (by omega), Nat.testBit_lt_two_pow (by omega)]
  rfl

theorem foldl_or_lt (l : List EntryBuilder) (acc n : Nat) (hacc : acc < 2 ^ n)
    (h : ∀ e ∈ l, e.register_indexes < 2 ^ n) :
    l.foldl (fun acc e => acc ||| e.register_indexes) acc < 2 ^ n := by
  induction l generalizing acc with
  | nil => simpa using hacc
  | cons x rest ih =>
    simp only [List.foldl_cons]
    exact ih _ (or_lt_two_pow _ _ _ hacc (h x (by simp)))
      (fun e he => h e (by simp [he]))

theorem testBit_foldl_or_acc (l : List EntryBuilder) (acc : Nat) (i : Nat)
    (h : Nat.testBit acc i = true) :
    Nat.testBit (l.foldl (fun acc e => acc ||| e.register_indexes) acc) i = true := by
  induction l generalizing acc with
  | nil => simpa using h
  | cons x rest ih =>
    simp only [List.foldl_cons]
    exact ih _ (by rw [Nat.testBit_or, h]; rfl)

theorem testBit_foldl_or_mem (l : List EntryBuilder) (acc : Nat) (e : EntryBuilder)
    (he : e ∈ l) (i : Nat) (h : Nat.testBit e.register_indexes i = true) :
    Nat.testBit (l.foldl (fun acc e => acc ||| e.register_indexes) acc) i = true := by
  induction l generalizing acc with
  | nil => cases he
  | cons x rest ih =>
    simp only [List.foldl_cons]
    rcases List.mem_cons.mp he with hx | hx
    · subst hx
      exact testBit_foldl_or_acc rest _ i (by rw [Nat.testBit_or, h]; simp)
    · exact ih _ hx

theorem mask_lt_of_foldl_or_lt (l : List EntryBuilder) (e : EntryBuilder) (he : e ∈ l)
    (n : Nat) (h : l.foldl (fun acc e => acc ||| e.register_indexes) 0 < 2 ^ n) :
    e.register_indexes < 2 ^ n := by
  apply Nat.lt_pow_two_of_testBit
  intro i hi
  by_contra hbit
  have hbit2 : Nat.testBit e.register_indexes i = true := by
    cases hb : Nat.testBit e.register_indexes i
    · exact absurd hb hbit
    · rfl
  have := testBit_foldl_or_mem l 0 e he i hbit2
  have h2 : (2 : Nat) ^ n ≤ 2 ^ i := Nat.pow_le_pow_right (by omega) hi
  rw [Nat.testBit_lt_two_pow (by omega)] at this
  exact Bool.noConfusion this

/-! ## Configuration word encode/decode -/

theorem encodeConfig_lt (c : EmitConfig) (hr : c.register_indexes_size < 2 ^ 3)
    (hp : c.pc_size < 2 ^ 3) (hd : c.deopt_index_size < 2 ^ 3)
    (ht : c.tagged_slots_bytes < 2 ^ 22) : encodeConfig c < 2 ^ 32 := by
  unfold encodeConfig
  cases c.has_deopt_data <;> simp <;> omega

theorem cfgHasDeoptData_encode (c : EmitConfig) (hr : c.register_indexes_size < 2 ^ 3)
    (hp : c.pc_size < 2 ^ 3) (hd : c.deopt_index_size < 2 ^ 3) :
    cfgHasDeoptData (encodeConfig c) = c.has_deopt_data := by
  unfold cfgHasDeoptData encodeConfig
  cases c.has_deopt_data <;> simp [Nat.beq_eq_true_eq] <;> omega

theorem cfgRegisterIndexesSize_encode (c : EmitConfig)
    (hr : c.register_indexes_size < 2 ^ 3) (hp : c.pc_size < 2 ^ 3)
    (hd : c.deopt_index_size < 2 ^ 3) :
    cfgRegisterIndexesSize (encodeConfig c) = c.register_indexes_size := by
  unfold cfgRegisterIndexesSize encodeConfig
  cases c.has_deopt_data <;> simp <;> omega

theorem cfgPcSize_encode (c : EmitConfig) (hr : c.register_indexes_size < 2 ^ 3)
    (hp : c.pc_size < 2 ^ 3) (hd : c.deopt_index_size < 2 ^ 3) :
    cfgPcSize (encodeConfig c) = c.pc_size := by
  unfold cfgPcSize encodeConfig
  cases c.has_deopt_data <;> simp <;> omega

theorem cfgDeoptIndexSize_encode (c : EmitConfig) (hr : c.register_indexes_size < 2 ^ 3)
    (hp : c.pc_size < 2 ^ 3) (hd : c.deopt_index_size < 2 ^ 3) :
    cfgDeoptIndexSize (encodeConfig c) = c.deopt_index_size := by
  unfold cfgDeoptIndexSize encodeConfig
  cases c.has_deopt_data <;> simp <;> omega

theorem cfgTaggedSlotsBytes_encode (c : EmitConfig) (hr : c.register_indexes_size < 2 ^ 3)
    (hp : c.pc_size < 2 ^ 3) (hd : c.deopt_index_size < 2 ^ 3)
    (ht : c.tagged_slots_bytes < 2 ^ 22) :
    cfgTaggedSlotsBytes (encodeConfig c) = c.tagged_slots_bytes := by
  unfold cfgTaggedSlotsBytes encodeConfig
  cases c.has_deopt_data <;> simp <;> omega

/-! ## Entry record and bitmap structure -/

theorem length_emit_bytes (v : Int) (k : Nat) : (emit_bytes v k).length = k := by
  unfold emit_bytes
  exact length_leBytes _ _

theorem length_entryRecordBytes (c : EmitConfig) (e : EntryBuilder) :
    (entryRecordBytes c e).length =
      c.pc_size +
      (if c.has_deopt_data then c.deopt_index_size + c.pc_size else 0) +
      c.register_indexes_size := by
  unfold entryRecordBytes
  cases h : c.has_deopt_data <;>
    simp [h, length_emit_bytes, List.length_append] <;> ring

theorem foldl_setBit_length (t : Int) (idxs : List Int) (bits : List Nat) :
    (idxs.foldl
      (fun bits idx =>
        let index := (t - 1 - idx).toNat
        bits.set (index / 8) (bits.getD (index / 8) 0 ||| 1 <<< (index % 8)))
      bits).length = bits.length := by
  induction idxs generalizing bits with
  | nil => rfl
  | cons idx rest ih =>
    simp only [List.foldl_cons]
    rw [ih]
    exact List.length_set _ _ _

theorem length_entryBitmapBytes (t : Int) (c : EmitConfig) (e : EntryBuilder) :
    (entryBitmapBytes t c e).length = c.tagged_slots_bytes := by
  unfold entryBitmapBytes
  rw [foldl_setBit_length, List.length_replicate]

theorem readLE_append_right_of (a b : List Nat) (off off2 k : Nat)
    (h : off = a.length + off2) : readLE (a ++ b) off k = readLE b off2 k := by
  subst h
  exact readLE_append_right a b off2 k

theorem record_read_pc (c : EmitConfig) (e : EntryBuilder)
    (h : e.pc.toNat < 256 ^ c.pc_size) :
    readLE (entryRecordBytes c e) 0 c.pc_size = e.pc.toNat := by
  unfold entryRecordBytes emit_bytes
  rw [List.append_assoc]
  exact readLE_leBytes_append _ _ _ h

theorem record_read_deopt (c : EmitConfig) (e : EntryBuilder)
    (hd : c.has_deopt_data = true)
    (h : (e.deopt_index + 1).toNat < 256 ^ c.deopt_index_size) :
    readLE (entryRecordBytes c e) c.pc_size c.deopt_index_size =
      (e.deopt_index + 1).toNat := by
  unfold entryRecordBytes emit_bytes
  rw [hd, if_pos rfl, List.append_assoc,
    readLE_append_right_of _ _ _ 0 _ (by rw [length_leBytes]; omega),
    List.append_assoc]
  exact readLE_leBytes_append _ _ _ h

theorem record_read_trampoline (c : EmitConfig) (e : EntryBuilder)
    (hd : c.has_deopt_data = true)
    (h : (e.trampoline + 1).toNat < 256 ^ c.pc_size) :
    readLE (entryRecordBytes c e) (c.pc_size + c.deopt_index_size) c.pc_size =
      (e.trampoline + 1).toNat := by
  unfold entryRecordBytes emit_bytes
  rw [hd, if_pos rfl, List.append_assoc,
    readLE_append_right_of _ _ _ c.deopt_index_size _ (by rw [length_leBytes]),
    List.append_assoc,
    readLE_append_right_of _ _ _ 0 _ (by rw [length_leBytes]; omega)]
  exact readLE_leBytes_append _ _ _ h

theorem record_read_registers_deopt (c : EmitConfig) (e : EntryBuilder)
    (hd : c.has_deopt_data = true)
    (h : e.register_indexes < 256 ^ c.register_indexes_size) :
    readLE (entryRecordBytes c e)
      (c.pc_size + c.deopt_index_size + c.pc_size) c.register_indexes_size =
      e.register_indexes := by
  unfold entryRecordBytes emit_bytes
  rw [hd, if_pos rfl, List.append_assoc,
    readLE_append_right_of _ _ _ (c.deopt_index_size + c.pc_size) _
      (by rw [length_leBytes]; ring),
    List.append_assoc,
    readLE_append_right_of _ _ _ c.pc_size _ (by rw [length_leBytes]),
    readLE_append_right_of _ _ _ 0 _ (by rw [length_leBytes]; omega)]
  have h3 : (Int.ofNat e.register_indexes).toNat = e.register_indexes := rfl
  rw [h3, readLE_leBytes _ _ h]

theorem record_read_registers_nodeopt (c : EmitConfig) (e : EntryBuilder)
    (hd : c.has_deopt_data = false)
    (h : e.register_indexes < 256 ^ c.register_indexes_size) :
    readLE (entryRecordBytes c e) c.pc_size c.register_indexes_size =
      e.register_indexes := by
  unfold entryRecordBytes emit_bytes
  rw [hd]
  simp only [Bool.false_eq_true, if_false, List.append_nil]
  rw [readLE_append_right_of _ _ _ 0 _ (by rw [length_leBytes]; omega)]
  have h3 : (Int.ofNat e.register_indexes).toNat = e.register_indexes := rfl
  rw [h3, readLE_leBytes _ _ h]

/-! ## Decoding the serialized table -/

theorem length_entryRecordBytes_rs (c : EmitConfig) (e : EntryBuilder) :
    (entryRecordBytes c e).length = recordSizeOf c :=
  length_entryRecordBytes c e

theorem maxPcValue_lb (l : List EntryBuilder) : -1 ≤ maxPcValue l :=
  foldl_max_ge_init (fun e => max e.pc e.trampoline) l (-1)

theorem maxPcValue_ub (l : List EntryBuilder) (t : Int) (hb : EntryBounds t l) :
    maxPcValue l ≤ 2 ^ 31 - 1 :=
  foldl_max_le (fun e => max e.pc e.trampoline) l (-1) (2 ^ 31 - 1) (by norm_num)
    (fun e he => by
      obtain ⟨h1, h2, h3, h4, _⟩ := hb e he
      simp only [max_le_iff]
      omega)

theorem maxDeoptIndexValue_lb (l : List EntryBuilder) : -1 ≤ maxDeoptIndexValue l :=
  foldl_max_ge_init (fun e => e.deopt_index) l (-1)

theorem maxDeoptIndexValue_ub (l : List EntryBuilder) (t : Int) (hb : EntryBounds t l) :
    maxDeoptIndexValue l ≤ 2 ^ 31 - 1 :=
  foldl_max_le (fun e => e.deopt_index) l (-1) (2 ^ 31 - 1) (by norm_num)
    (fun e he => by
      obtain ⟨_, _, _, _, h5, h6, _⟩ := hb e he
      show e.deopt_index ≤ 2 ^ 31 - 1
      omega)

theorem usedRegisterIndexes_lt (l : List EntryBuilder) (t : Int) (hb : EntryBounds t l) :
    usedRegisterIndexes l < 2 ^ 31 :=
  foldl_or_lt l 0 31 (by norm_num)
    (fun e he => (hb e he).2.2.2.2.2.2.1)

theorem pc_fit (l : List EntryBuilder) (t : Int) (hb : EntryBounds t l)
    (e : EntryBuilder) (he : e ∈ l) :
    e.pc.toNat < 256 ^ (deriveEmitConfig l t).pc_size := by
  have h1 : max e.pc e.trampoline ≤ maxPcValue l :=
    foldl_max_ge_mem (fun e => max e.pc e.trampoline) l (-1) e he
  have h2 := maxPcValue_ub l t hb
  obtain ⟨hp1, _⟩ := hb e he
  have := value_to_bytes_fit e.pc (maxPcValue l + 1) hp1
    (by simp only [max_le_iff] at h1; omega) (by omega)
  exact this

theorem trampoline_fit (l : List EntryBuilder) (t : Int) (hb : EntryBounds t l)
    (e : EntryBuilder) (he : e ∈ l) :
    (e.trampoline + 1).toNat < 256 ^ (deriveEmitConfig l t).pc_size := by
  have h1 : max e.pc e.trampoline ≤ maxPcValue l :=
    foldl_max_ge_mem (fun e => max e.pc e.trampoline) l (-1) e he
  have h2 := maxPcValue_ub l t hb
  obtain ⟨_, _, ht1, _⟩ := hb e he
  exact value_to_bytes_fit (e.trampoline + 1) (maxPcValue l + 1) (by omega)
    (by simp only [max_le_iff] at h1; omega) (by omega)

theorem deopt_fit (l : List EntryBuilder) (t : Int) (hb : EntryBounds t l)
    (e : EntryBuilder) (he : e ∈ l) :
    (e.deopt_index + 1).toNat < 256 ^ (deriveEmitConfig l t).deopt_index_size := by
  have h1 : e.deopt_index ≤ maxDeoptIndexValue l :=
    foldl_max_ge_mem (fun e => e.deopt_index) l (-1) e he
  have h2 := maxDeoptIndexValue_ub l t hb
  obtain ⟨_, _, _, _, hd1, _⟩ := hb e he
  exact value_to_bytes_fit (e.deopt_index + 1) (maxDeoptIndexValue l + 1) (by omega)
    (by omega) (by omega)

theorem mask_fit (l : List EntryBuilder) (t : Int) (hb : EntryBounds t l)
    (e : EntryBuilder) (he : e ∈ l) :
    e.register_indexes < 256 ^ (deriveEmitConfig l t).register_indexes_size := by
  have hused := usedRegisterIndexes_lt l t hb
  have hle : (usedRegisterIndexes l : Int) ≤ 0xffffffff := by
    exact_mod_cast (by omega : usedRegisterIndexes l ≤ 0xffffffff)
  have hfit := value_to_bytes_fit (Int.ofNat (usedRegisterIndexes l))
    (Int.ofNat (usedRegisterIndexes l)) (Int.ofNat_nonneg _) (le_refl _) hle
  have htoNat : (Int.ofNat (usedRegisterIndexes l)).toNat = usedRegisterIndexes l := rfl
  rw [htoNat] at hfit
  have hpow : (256 : Nat) ^ (deriveEmitConfig l t).register_indexes_size =
      2 ^ (8 * (deriveEmitConfig l t).register_indexes_size) := by
    rw [Nat.pow_mul]
  rw [hpow]
  apply mask_lt_of_foldl_or_lt l e he
  rw [← hpow]
  exact hfit

theorem serialize_split (l : List EntryBuilder) (t : Int) :
    serializeBytes l t =
      (leBytes l.length 4 ++ leBytes (encodeConfig (deriveEmitConfig l t)) 4) ++
      ((l.map (entryRecordBytes (deriveEmitConfig l t))).flatten ++
       (l.map (entryBitmapBytes t (deriveEmitConfig l t))).flatten) := by
  simp [serializeBytes, List.append_assoc]

theorem serialize_tableLength (l : List EntryBuilder) (t : Int)
    (hn : l.length < 2 ^ 32) : tableLength (serializeBytes l t) = l.length := by
  unfold tableLength serializeBytes
  rw [List.append_assoc, List.append_assoc]
  have h1 : (256 : Nat) ^ 4 = 4294967296 := by norm_num
  have h2 : (2 : Nat) ^ 32 = 4294967296 := by norm_num
  exact readLE_leBytes_append _ _ _ (by omega)

theorem serialize_tableConfig (l : List EntryBuilder) (t : Int)
    (hr : (deriveEmitConfig l t).register_indexes_size < 2 ^ 3)
    (hp : (deriveEmitConfig l t).pc_size < 2 ^ 3)
    (hd : (deriveEmitConfig l t).deopt_index_size < 2 ^ 3)
    (ht : (deriveEmitConfig l t).tagged_slots_bytes < 2 ^ 22) :
    tableConfig (serializeBytes l t) = encodeConfig (deriveEmitConfig l t) := by
  unfold tableConfig serializeBytes
  rw [List.append_assoc, List.append_assoc,
    readLE_append_right_of _ _ _ 0 _ (by rw [length_leBytes]; try omega)]
  have hlt := encodeConfig_lt (deriveEmitConfig l t) hr hp hd ht
  have h1 : (256 : Nat) ^ 4 = 4294967296 := by norm_num
  have h2 : (2 : Nat) ^ 32 = 4294967296 := by norm_num
  exact readLE_leBytes_append _ _ _ (by omega)

theorem entryRecordSize_encode (c : EmitConfig) (hr : c.register_indexes_size < 2 ^ 3)
    (hp : c.pc_size < 2 ^ 3) (hd : c.deopt_index_size < 2 ^ 3) :
    entryRecordSize (encodeConfig c) = recordSizeOf c := by
  unfold entryRecordSize recordSizeOf
  rw [cfgPcSize_encode c hr hp hd, cfgHasDeoptData_encode c hr hp hd,
    cfgDeoptIndexSize_encode c hr hp hd, cfgRegisterIndexesSize_encode c hr hp hd]

theorem serialize_read_record (l : List EntryBuilder) (t : Int) (i o k : Nat)
    (hi : i < l.length) (ho : o + k ≤ recordSizeOf (deriveEmitConfig l t)) :
    readLE (serializeBytes l t)
      (8 + i * recordSizeOf (deriveEmitConfig l t) + o) k =
      readLE (entryRecordBytes (deriveEmitConfig l t) (l.get ⟨i, hi⟩)) o k := by
  rw [serialize_split,
    readLE_append_right_of _ _ _ (i * recordSizeOf (deriveEmitConfig l t) + o) _
      (by simp only [List.length_append, length_leBytes]; omega)]
  have h := readLE_flatten_append (recordSizeOf (deriveEmitConfig l t))
    (l.map (entryRecordBytes (deriveEmitConfig l t)))
    (l.map (entryBitmapBytes t (deriveEmitConfig l t))).flatten
    (fun r hr => by
      obtain ⟨e, he, rfl⟩ := List.mem_map.mp hr
      exact length_entryRecordBytes_rs _ e)
    i o k (by simpa using hi) ho
  rw [h, List.get_eq_getElem, List.getElem_map]
  simp [List.get_eq_getElem]

theorem serialize_read_bitmap (l : List EntryBuilder) (t : Int) (i : Nat)
    (hi : i < l.length) :
    ((serializeBytes l t).drop
      (8 + l.length * recordSizeOf (deriveEmitConfig l t) +
        i * (deriveEmitConfig l t).tagged_slots_bytes)).take
      (deriveEmitConfig l t).tagged_slots_bytes =
      entryBitmapBytes t (deriveEmitConfig l t) (l.get ⟨i, hi⟩) := by
  rw [serialize_split]
  have hR : (l.map (entryRecordBytes (deriveEmitConfig l t))).flatten.length =
      l.length * recordSizeOf (deriveEmitConfig l t) := by
    rw [flatten_length_const (recordSizeOf (deriveEmitConfig l t)) _
      (fun r hr => by
        obtain ⟨e, he, rfl⟩ := List.mem_map.mp hr
        exact length_entryRecordBytes_rs _ e), List.length_map]
  have hoff : 8 + l.length * recordSizeOf (deriveEmitConfig l t) +
      i * (deriveEmitConfig l t).tagged_slots_bytes =
      (leBytes l.length 4 ++ leBytes (encodeConfig (deriveEmitConfig l t)) 4).length +
      (l.length * recordSizeOf (deriveEmitConfig l t) +
        i * (deriveEmitConfig l t).tagged_slots_bytes) := by
    simp only [List.length_append, length_leBytes]; omega
  rw [hoff, List.drop_append]
  have hoff2 : l.length * recordSizeOf (deriveEmitConfig l t) +
      i * (deriveEmitConfig l t).tagged_slots_bytes =
      (l.map (entryRecordBytes (deriveEmitConfig l t))).flatten.length +
      i * (deriveEmitConfig l t).tagged_slots_bytes := by
    rw [hR]
  rw [hoff2, List.drop_append,
    flatten_drop_const (deriveEmitConfig l t).tagged_slots_bytes _
      (fun b hb => by
        obtain ⟨e, he, rfl⟩ := List.mem_map.mp hb
        exact length_entryBitmapBytes _ _ e) i,
    List.drop_eq_getElem_cons (by simpa using hi), List.flatten_cons,
    List.getElem_map,
    List.take_append_of_le_length (by rw [length_entryBitmapBytes]),
    List.take_of_length_le (by rw [length_entryBitmapBytes])]
  simp [List.get_eq_getElem]

theorem serialize_read_record_at (l : List EntryBuilder) (t : Int) (off i o k : Nat)
    (hi : i < l.length) (ho : o + k ≤ recordSizeOf (deriveEmitConfig l t))
    (hoff : off = 8 + i * recordSizeOf (deriveEmitConfig l t) + o) :
    readLE (serializeBytes l t) off k =
      readLE (entryRecordBytes (deriveEmitConfig l t) (l.get ⟨i, hi⟩)) o k := by
  subst hoff
  exact serialize_read_record l t i o k hi ho

theorem deriveSizes_lt (l : List EntryBuilder) (t : Int) :
    (deriveEmitConfig l t).register_indexes_size < 2 ^ 3 ∧
    (deriveEmitConfig l t).pc_size < 2 ^ 3 ∧
    (deriveEmitConfig l t).deopt_index_size < 2 ^ 3 := by
  refine ⟨?_, ?_, ?_⟩
  · have := value_to_bytes_le_four (Int.ofNat (usedRegisterIndexes l))
    show value_to_bytes (Int.ofNat (usedRegisterIndexes l)) < 2 ^ 3
    omega
  · have := value_to_bytes_le_four (maxPcValue l + 1)
    show value_to_bytes (maxPcValue l + 1) < 2 ^ 3
    omega
  · have := value_to_bytes_le_four (maxDeoptIndexValue l + 1)
    show value_to_bytes (maxDeoptIndexValue l + 1) < 2 ^ 3
    omega

theorem pcSize_le_recordSize (c : EmitConfig) : c.pc_size ≤ recordSizeOf c := by
  unfold recordSizeOf
  cases c.has_deopt_data <;> simp <;> omega

theorem serialize_GetEntry (l : List EntryBuilder) (t : Int) (i : Nat)
    (hi : i < l.length) (hb : EntryBounds t l) (hn : l.length < 2 ^ 31)
    (hv : (deriveEmitConfig l t).tagged_slots_bytes < 2 ^ 22) :
    GetEntry (serializeBytes l t) i =
      decodedOf (deriveEmitConfig l t) t (l.get ⟨i, hi⟩) := by
  obtain ⟨hr, hp, hd⟩ := deriveSizes_lt l t
  have hcfg := serialize_tableConfig l t hr hp hd hv
  have htl := serialize_tableLength l t (by omega)
  have hmem : l.get ⟨i, hi⟩ ∈ l := List.get_mem l i hi
  obtain ⟨hpc0, hpc1, htr0, htr1, hdi0, hdi1, hmk, hsl⟩ := hb _ hmem
  have hpcfit := pc_fit l t hb _ hmem
  have htrfit := trampoline_fit l t hb _ hmem
  have hdifit := deopt_fit l t hb _ hmem
  have hmkfit := mask_fit l t hb _ hmem
  simp only [GetEntry]
  rw [hcfg, htl, cfgHasDeoptData_encode _ hr hp hd, cfgPcSize_encode _ hr hp hd,
    cfgDeoptIndexSize_encode _ hr hp hd, cfgRegisterIndexesSize_encode _ hr hp hd,
    cfgTaggedSlotsBytes_encode _ hr hp hd hv, entryRecordSize_encode _ hr hp hd]
  rw [serialize_read_bitmap l t i hi]
  cases hdd : (deriveEmitConfig l t).has_deopt_data with
  | false =>
    simp only [Bool.false_eq_true, if_false, decodedOf, hdd]
    rw [serialize_read_record_at l t _ i 0 (deriveEmitConfig l t).pc_size hi
        (by have := pcSize_le_recordSize (deriveEmitConfig l t); omega) (by omega),
      serialize_read_record_at l t _ i (deriveEmitConfig l t).pc_size
        (deriveEmitConfig l t).register_indexes_size hi
        (by unfold recordSizeOf; rw [hdd]; simp) (by omega),
      record_read_pc _ _ hpcfit, record_read_registers_nodeopt _ _ hdd hmkfit]
    congr 1
    rw [Int.ofNat_eq_natCast]
    exact Int.toNat_of_nonneg hpc0
  | true =>
    simp only [if_true, decodedOf, hdd]
    have hrs : recordSizeOf (deriveEmitConfig l t) =
        (deriveEmitConfig l t).pc_size +
        ((deriveEmitConfig l t).deopt_index_size + (deriveEmitConfig l t).pc_size) +
        (deriveEmitConfig l t).register_indexes_size := by
      unfold recordSizeOf
      rw [hdd]
      simp
    rw [serialize_read_record_at l t _ i 0 (deriveEmitConfig l t).pc_size hi
        (by have := pcSize_le_recordSize (deriveEmitConfig l t); omega) (by omega),
      serialize_read_record_at l t _ i (deriveEmitConfig l t).pc_size
        (deriveEmitConfig l t).deopt_index_size hi (by omega) (by omega),
      serialize_read_record_at l t _ i
        ((deriveEmitConfig l t).pc_size + (deriveEmitConfig l t).deopt_index_size)
        (deriveEmitConfig l t).pc_size hi (by omega) (by omega),
      serialize_read_record_at l t _ i
        ((deriveEmitConfig l t).pc_size + (deriveEmitConfig l t).deopt_index_size +
          (deriveEmitConfig l t).pc_size)
        (deriveEmitConfig l t).register_indexes_size hi (by omega) (by omega),
      record_read_pc _ _ hpcfit, record_read_deopt _ _ hdd hdifit,
      record_read_trampoline _ _ hdd htrfit, record_read_registers_deopt _ _ hdd hmkfit]
    congr 1 <;> rw [Int.ofNat_eq_natCast] <;> omega

/-! ## Bitmap decode -/

theorem slotBit_eq_getBitAt (bm : List Nat) (t s : Int) :
    slotBit bm t s = getBitAt bm ((t - 1 - s).toNat) := rfl

theorem getBitAt_set (bits : List Nat) (p j : Nat) (hp : p / 8 < bits.length) :
    getBitAt (bits.set (p / 8) (bits.getD (p / 8) 0 ||| 1 <<< (p % 8))) j =
      (getBitAt bits j || decide (j = p)) := by
  unfold getBitAt
  have hshift : (1 : Nat) <<< (p % 8) = 2 ^ (p % 8) := by
    rw [Nat.shiftLeft_eq, one_mul]
  by_cases hb : j / 8 = p / 8
  · rw [hb]
    have hget : (bits.set (p / 8) (bits.getD (p / 8) 0 ||| 1 <<< (p % 8))).getD (p / 8) 0 =
        bits.getD (p / 8) 0 ||| 1 <<< (p % 8) := by
      simp [List.getD_eq_getElem?_getD, List.getElem?_set, hp]
    rw [hget, hshift, Nat.testBit_or]
    by_cases hm : j % 8 = p % 8
    · have hj : j = p := by omega
      simp [hm, hj, Nat.testBit_two_pow]
    · have hj : j ≠ p := by omega
      simp [hj, Nat.testBit_two_pow]
      intro hc
      omega
  · have hget : (bits.set (p / 8) (bits.getD (p / 8) 0 ||| 1 <<< (p % 8))).getD (j / 8) 0 =
        bits.getD (j / 8) 0 := by
      simp [List.getD_eq_getElem?_getD, List.getElem?_set, Ne.symm hb]
    have hj : j ≠ p := by omega
    rw [hget]
    simp [hj]

theorem getBitAt_foldl_setBit (t : Int) (idxs : List Int) (bits : List Nat) (j : Nat)
    (hp : ∀ idx ∈ idxs, (t - 1 - idx).toNat / 8 < bits.length) :
    (getBitAt
      (idxs.foldl
        (fun bits idx =>
          let index := (t - 1 - idx).toNat
          bits.set (index / 8) (bits.getD (index / 8) 0 ||| 1 <<< (index % 8)))
        bits) j = true) ↔
      (getBitAt bits j = true ∨ ∃ idx ∈ idxs, (t - 1 - idx).toNat = j) := by
  induction idxs generalizing bits with
  | nil => simp
  | cons x rest ih =>
    simp only [List.foldl_cons]
    have hlen : (bits.set ((t - 1 - x).toNat / 8)
        (bits.getD ((t - 1 - x).toNat / 8) 0 ||| 1 <<< ((t - 1 - x).toNat % 8))).length =
        bits.length := List.length_set _ _ _
    rw [ih _ (fun idx hidx => by rw [hlen]; exact hp idx (by simp [hidx]))]
    rw [getBitAt_set bits ((t - 1 - x).toNat) j (hp x (by simp))]
    constructor
    · rintro (h | h)
      · rcases Bool.or_eq_true_iff.mp h with h2 | h2
        · exact Or.inl h2
        · exact Or.inr ⟨x, by simp, by have := of_decide_eq_true h2; omega⟩
      · obtain ⟨idx, hidx, hval⟩ := h
        exact Or.inr ⟨idx, by simp [hidx], hval⟩
    · rintro (h | ⟨idx, hidx, hval⟩)
      · exact Or.inl (by rw [h]; rfl)
      · rcases List.mem_cons.mp hidx with rfl | hmem
        · exact Or.inl (by rw [Bool.or_eq_true_iff]; right; simp [hval])
        · exact Or.inr ⟨idx, hmem, hval⟩

theorem getBitAt_replicate (n j : Nat) : getBitAt (List.replicate n 0) j = false := by
  unfold getBitAt
  have : (List.replicate n (0 : Nat)).getD (j / 8) 0 = 0 := by
    rw [List.getD_eq_getElem?_getD, List.getElem?_replicate]
    split <;> rfl
  rw [this]
  exact Nat.zero_testBit _

theorem slotBit_entryBitmapBytes (c : EmitConfig) (t : Int) (e : EntryBuilder) (s : Int)
    (hsl : ∀ idx ∈ e.stack_indexes, 0 ≤ idx ∧ idx < t)
    (hcap : t.toNat ≤ 8 * c.tagged_slots_bytes)
    (hs0 : 0 ≤ s) (hs1 : s < t) :
    (slotBit (entryBitmapBytes t c e) t s = true) ↔ s ∈ e.stack_indexes := by
  rw [slotBit_eq_getBitAt]
  unfold entryBitmapBytes
  rw [getBitAt_foldl_setBit t e.stack_indexes (List.replicate c.tagged_slots_bytes 0)
    ((t - 1 - s).toNat)
    (fun idx hidx => by
      obtain ⟨h1, h2⟩ := hsl idx hidx
      rw [List.length_replicate]
      omega)]
  rw [getBitAt_replicate]
  constructor
  · rintro (h | ⟨idx, hidx, hval⟩)
    · exact absurd h (by simp)
    · obtain ⟨h1, h2⟩ := hsl idx hidx
      have : idx = s := by omega
      rwa [this] at hidx
  · intro h
    exact Or.inr ⟨s, h, rfl⟩

/-! ## Lookup scans -/

theorem trampolineScan_none (entries : List SafepointEntry) (o : Int)
    (h : ∀ e ∈ entries, e.trampoline_pc = -1 ∨ o < e.trampoline_pc) :
    trampolineScan entries o none = none := by
  induction entries with
  | nil => rfl
  | cons e rest ih =>
    have hcand : (if e.trampoline_pc ≠ -1 ∧ e.trampoline_pc ≤ o then some e else none) =
        (none : Option SafepointEntry) := by
      rcases h e (by simp) with h1 | h1 <;> simp [h1] <;> omega
    simp only [trampolineScan, hcand]
    split
    · rfl
    · exact ih (fun e2 he2 => h e2 (by simp [he2]))

theorem trampolineScan_result (entries : List SafepointEntry) (o : Int)
    (acc : Option SafepointEntry) (c : SafepointEntry)
    (hacc : ∀ a, acc = some a → a.trampoline_pc ≠ -1 ∧ a.trampoline_pc ≤ o)
    (h : trampolineScan entries o acc = some c) :
    c.trampoline_pc ≠ -1 ∧ c.trampoline_pc ≤ o := by
  induction entries generalizing acc with
  | nil => exact hacc c h
  | cons e rest ih =>
    simp only [trampolineScan] at h
    by_cases hc : e.trampoline_pc ≠ -1 ∧ e.trampoline_pc ≤ o
    · rw [if_pos hc] at h
      split at h
      · exact (Option.some_inj.mp h) ▸ hc
      · exact ih _ (fun a ha => (Option.some_inj.mp ha) ▸ hc) h
    · rw [if_neg hc] at h
      split at h
      · exact hacc c h
      · exact ih _ hacc h

theorem findLinear_map (f : EntryBuilder → SafepointEntry)
    (hf : ∀ e, (f e).pc = e.pc) (l : List EntryBuilder) (o : Int) :
    findLinear (l.map f) o = (coverScan l o).map f := by
  induction l with
  | nil => rfl
  | cons e rest ih =>
    cases rest with
    | nil => rfl
    | cons e2 rest2 =>
      simp only [List.map_cons, findLinear, coverScan, hf e2]
      split
      · rfl
      · exact ih

/-! ## Deduplication -/

theorem ident_iff (e1 e2 : EntryBuilder) :
    is_identical_except_for_pc e1 e2 = true ↔
      (e1.deopt_index = e2.deopt_index ∧ e1.stack_indexes = e2.stack_indexes ∧
       e1.register_indexes = e2.register_indexes) := by
  unfold is_identical_except_for_pc
  constructor
  · intro h
    simp only [Bool.and_eq_true, beq_iff_eq] at h
    exact ⟨h.1.1.1, h.1.2, h.2⟩
  · rintro ⟨h1, h2, h3⟩
    simp [h1, h2, h3]

theorem ident_refl (e : EntryBuilder) : is_identical_except_for_pc e e = true := by
  rw [ident_iff]
  exact ⟨rfl, rfl, rfl⟩

theorem mem_dedupScan (kept : EntryBuilder) (l : List EntryBuilder) (e : EntryBuilder)
    (he : e ∈ dedupScan kept l) : e ∈ l := by
  induction l generalizing kept with
  | nil => cases he
  | cons x t ih =>
    simp only [dedupScan] at he
    split at he
    · exact List.mem_cons.mpr (Or.inr (ih _ he))
    · rcases List.mem_cons.mp he with rfl | h2
      · exact List.mem_cons.mpr (Or.inl rfl)
      · exact List.mem_cons.mpr (Or.inr (ih _ h2))

theorem length_dedupScan (kept : EntryBuilder) (l : List EntryBuilder) :
    (dedupScan kept l).length ≤ l.length := by
  induction l generalizing kept with
  | nil => exact Nat.le_refl 0
  | cons x t ih =>
    simp only [dedupScan]
    split
    · exact Nat.le_succ_of_le (ih _)
    · simpa using ih x

theorem mem_removeDuplicates (l : List EntryBuilder) (e : EntryBuilder)
    (he : e ∈ removeDuplicates l) : e ∈ l := by
  cases l with
  | nil => cases he
  | cons x t =>
    rcases List.mem_cons.mp he with rfl | h2
    · exact List.mem_cons.mpr (Or.inl rfl)
    · exact List.mem_cons.mpr (Or.inr (mem_dedupScan x t e h2))

theorem length_removeDuplicates (l : List EntryBuilder) :
    (removeDuplicates l).length ≤ l.length := by
  cases l with
  | nil => exact Nat.le_refl 0
  | cons x t => simpa [removeDuplicates] using length_dedupScan x t

theorem coverScan_dedupScan (l : List EntryBuilder) (kept : EntryBuilder)
    (hsort : List.Pairwise (fun a b => a.pc < b.pc) (kept :: l)) (e : EntryBuilder)
    (he : e ∈ kept :: l) :
    ∃ h, coverScan (kept :: dedupScan kept l) e.pc = some h ∧
      is_identical_except_for_pc e h = true ∧ h ∈ kept :: dedupScan kept l := by
  induction l generalizing kept with
  | nil =>
    rcases List.mem_cons.mp he with rfl | h2
    · exact ⟨e, rfl, ident_refl e, by simp [dedupScan]⟩
    · cases h2
  | cons x t ih =>
    rw [List.pairwise_cons] at hsort
    obtain ⟨hlt, hsort2⟩ := hsort
    cases hid : is_identical_except_for_pc x kept with
    | true =>
      have hscan : dedupScan kept (x :: t) = dedupScan kept t := by
        simp [dedupScan, hid]
      rw [hscan]
      have hsort3 : List.Pairwise (fun a b => a.pc < b.pc) (kept :: t) := by
        rw [List.pairwise_cons]
        exact ⟨fun a ha => hlt a (by simp [ha]), (List.pairwise_cons.mp hsort2).2⟩
      rcases List.mem_cons.mp he with rfl | h2
      · exact ih e hsort3 (by simp)
      · rcases List.mem_cons.mp h2 with rfl | h3
        · -- e = x, merged into kept
          refine ⟨kept, ?_, hid, by simp⟩
          cases hK : dedupScan kept t with
          | nil => rfl
          | cons k0 ks =>
            have hk0 : k0 ∈ t := mem_dedupScan kept t k0 (by rw [hK]; simp)
            have hgt : k0.pc > e.pc :=
              (List.pairwise_cons.mp hsort2).1 k0 hk0
            simp [coverScan, hgt]
        · exact ih kept hsort3 (by simp [h3])
    | false =>
      have hscan : dedupScan kept (x :: t) = x :: dedupScan x t := by
        simp [dedupScan, hid]
      rw [hscan]
      rcases List.mem_cons.mp he with rfl | h2
      · -- e = kept
        refine ⟨e, ?_, ident_refl e, by simp⟩
        have hgt : x.pc > e.pc := hlt x (by simp)
        simp [coverScan, hgt]
      · -- e ∈ x :: t: recurse on x
        obtain ⟨h, hscan2, hident, hmem⟩ := ih x hsort2 h2
        refine ⟨h, ?_, hident, by
          rcases List.mem_cons.mp hmem with rfl | hm2
          · simp
          · simp [hm2]⟩
        have hge : ¬ x.pc > e.pc := by
          rcases List.mem_cons.mp h2 with rfl | h3
          · omega
          · have := (List.pairwise_cons.mp hsort2).1 e h3
            omega
        cases hK : dedupScan x t with
        | nil =>
          rw [hK] at hscan2
          simp only [coverScan, hge, if_false]
          exact hscan2
        | cons k0 ks =>
          rw [hK] at hscan2
          simp only [coverScan, hge, if_false]
          exact hscan2

theorem coverScan_map (f : EntryBuilder → EntryBuilder)
    (hf : ∀ e, (f e).pc = e.pc) (l : List EntryBuilder) (o : Int) :
    coverScan (l.map f) o = (coverScan l o).map f := by
  induction l with
  | nil => rfl
  | cons e rest ih =>
    cases rest with
    | nil => rfl
    | cons e2 rest2 =>
      simp only [List.map_cons, coverScan, hf e2]
      split
      · rfl
      · exact ih

/-! ## Trimming -/

theorem scanMinIndex_zero_mem (l : List Int) (m0 : Int) (hpos : 0 < m0)
    (hnn : ∀ x ∈ l, 0 ≤ x) (h0 : (0 : Int) ∈ l) : scanMinIndex l m0 = none := by
  induction l generalizing m0 with
  | nil => cases h0
  | cons x t ih =>
    simp only [scanMinIndex]
    by_cases hge : x ≥ m0
    · rw [if_pos hge]
      have h0t : (0 : Int) ∈ t := by
        rcases List.mem_cons.mp h0 with rfl | h
        · omega
        · exact h
      exact ih m0 hpos (fun y hy => hnn y (by simp [hy])) h0t
    · rw [if_neg hge]
      by_cases hx0 : x = 0
      · rw [if_pos hx0]
      · rw [if_neg hx0]
        have hxpos : 0 < x := by
          have := hnn x (by simp)
          omega
        have h0t : (0 : Int) ∈ t := by
          rcases List.mem_cons.mp h0 with rfl | h
          · omega
          · exact h
        exact ih x hxpos (fun y hy => hnn y (by simp [hy])) h0t

theorem scanMinIndex_no_zero (l : List Int) (m0 : Int) (hpos : 0 < m0)
    (hnn : ∀ x ∈ l, 0 ≤ x) (h0 : (0 : Int) ∉ l) :
    scanMinIndex l m0 = some (l.foldl min m0) := by
  induction l generalizing m0 with
  | nil => rfl
  | cons x t ih =>
    simp only [scanMinIndex, List.foldl_cons]
    by_cases hge : x ≥ m0
    · rw [if_pos hge]
      have hmin : min m0 x = m0 := min_eq_left (by omega)
      rw [hmin]
      exact ih m0 hpos (fun y hy => hnn y (by simp [hy])) (fun h => h0 (by simp [h]))
    · rw [if_neg hge]
      have hx0 : x ≠ 0 := fun h => h0 (by simp [h])
      rw [if_neg hx0]
      have hxpos : 0 < x := by
        have := hnn x (by simp)
        omega
      have hmin : min m0 x = x := min_eq_right (by omega)
      rw [hmin]
      exact ih x hxpos (fun y hy => hnn y (by simp [hy])) (fun h => h0 (by simp [h]))

theorem foldl_min_le_init (l : List Int) (m0 : Int) : l.foldl min m0 ≤ m0 := by
  induction l generalizing m0 with
  | nil => exact le_refl _
  | cons y t ih =>
    simp only [List.foldl_cons]
    calc t.foldl min (min m0 y) ≤ min m0 y := ih _
      _ ≤ m0 := min_le_left _ _

theorem foldl_min_le_mem (l : List Int) (m0 x : Int) (hx : x ∈ l) : l.foldl min m0 ≤ x := by
  induction l generalizing m0 with
  | nil => cases hx
  | cons y t ih =>
    simp only [List.foldl_cons]
    rcases List.mem_cons.mp hx with rfl | h
    · calc t.foldl min (min m0 x) ≤ min m0 x := foldl_min_le_init t _
        _ ≤ x := min_le_right _ _
    · exact ih _ h

theorem le_foldl_min (l : List Int) (m0 b : Int) (hb : b ≤ m0)
    (h : ∀ x ∈ l, b ≤ x) : b ≤ l.foldl min m0 := by
  induction l generalizing m0 with
  | nil => exact hb
  | cons y t ih =>
    simp only [List.foldl_cons]
    exact ih _ (le_min hb (h y (by simp))) (fun x hx => h x (by simp [hx]))

theorem map_shift_zero (l : List EntryBuilder) :
    l.map (fun e =>
      { e with stack_indexes := e.stack_indexes.map (fun idx => idx - 0) }) = l := by
  induction l with
  | nil => rfl
  | cons x t ih =>
    simp only [List.map_cons, ih]
    congr 1
    have hs : x.stack_indexes.map (fun idx => idx - 0) = x.stack_indexes := by
      have : ∀ s : List Int, s.map (fun idx => idx - 0) = s := fun s => by
        induction s with
        | nil => rfl
        | cons y ys ihs => simp [ihs]
      exact this _
    rw [hs]

theorem trimEntries_spec (tss : Int) (l : List EntryBuilder) (htss : 0 ≤ tss)
    (hb : ∀ e ∈ l, ∀ idx ∈ e.stack_indexes, 0 ≤ idx ∧ idx < tss) :
    ∃ m : Int, 0 ≤ m ∧ m ≤ tss ∧
      trimEntries tss l =
        (tss - m, l.map (fun e =>
          { e with stack_indexes := e.stack_indexes.map (fun idx => idx - m) })) ∧
      (∀ e ∈ l, ∀ idx ∈ e.stack_indexes, m ≤ idx) := by
  have hnnflat : ∀ x ∈ l.flatMap (fun e => e.stack_indexes), 0 ≤ x := by
    intro x hx
    obtain ⟨e, he, hxe⟩ := List.mem_flatMap.mp hx
    exact (hb e he x hxe).1
  by_cases h0 : tss = 0
  · refine ⟨0, le_refl 0, by omega, ?_, fun e he idx hidx => (hb e he idx hidx).1⟩
    rw [map_shift_zero]
    unfold trimEntries
    rw [if_pos h0]
    show (tss, l) = (tss - 0, l)
    rw [Int.sub_zero]
  · have htpos : 0 < tss := by omega
    by_cases hz : (0 : Int) ∈ l.flatMap (fun e => e.stack_indexes)
    · refine ⟨0, le_refl 0, by omega, ?_, fun e he idx hidx => (hb e he idx hidx).1⟩
      rw [map_shift_zero]
      unfold trimEntries
      rw [if_neg h0, scanMinIndex_zero_mem _ _ htpos hnnflat hz]
      show (tss, l) = (tss - 0, l)
      rw [Int.sub_zero]
    · refine ⟨(l.flatMap (fun e => e.stack_indexes)).foldl min tss, ?_, ?_, ?_, ?_⟩
      · exact le_foldl_min _ _ _ htss hnnflat
      · exact foldl_min_le_init _ _
      · unfold trimEntries
        rw [if_neg h0, scanMinIndex_no_zero _ _ htpos hnnflat hz]
      · intro e he idx hidx
        exact foldl_min_le_mem _ _ _ (List.mem_flatMap.mpr ⟨e, he, hidx⟩)

theorem EntryBounds_sub (tss : Int) (l l2 : List EntryBuilder)
    (hb : EntryBounds tss l) (hsub : ∀ e ∈ l2, e ∈ l) : EntryBounds tss l2 :=
  fun e he => hb e (hsub e he)

theorem EntryBounds_shift (tss m : Int) (l : List EntryBuilder)
    (hb : EntryBounds tss l) (hm0 : 0 ≤ m)
    (hlb : ∀ e ∈ l, ∀ idx ∈ e.stack_indexes, m ≤ idx) :
    EntryBounds (tss - m) (l.map (fun e =>
      { e with stack_indexes := e.stack_indexes.map (fun idx => idx - m) })) := by
  intro d hd
  obtain ⟨e, he, rfl⟩ := List.mem_map.mp hd
  obtain ⟨h1, h2, h3, h4, h5, h6, h7, h8⟩ := hb e he
  refine ⟨h1, h2, h3, h4, h5, h6, h7, ?_⟩
  intro idx hidx
  obtain ⟨idx0, hidx0, rfl⟩ := List.mem_map.mp hidx
  have := h8 idx0 hidx0
  have := hlb e he idx0 hidx0
  omega

theorem serialize_decodeTable (l : List EntryBuilder) (t : Int)
    (hb : EntryBounds t l) (hn : l.length < 2 ^ 31)
    (hv : (deriveEmitConfig l t).tagged_slots_bytes < 2 ^ 22) :
    decodeTable (serializeBytes l t) =
      l.map (decodedOf (deriveEmitConfig l t) t) := by
  unfold decodeTable
  rw [serialize_tableLength l t (by omega)]
  apply List.ext_getElem
  · simp
  · intro i h1 h2
    rw [List.getElem_map, List.getElem_map, List.getElem_range]
    have hi : i < l.length := by simpa using h2
    have := serialize_GetEntry l t i hi hb hn hv
    rw [this]
    simp [List.get_eq_getElem]

theorem configValid_of_tsb (l : List EntryBuilder) (t : Int)
    (ht : (deriveEmitConfig l t).tagged_slots_bytes < 2 ^ 22) :
    configValid (deriveEmitConfig l t) = true := by
  obtain ⟨hr, hp, hd⟩ := deriveSizes_lt l t
  unfold configValid
  simp only [Bool.and_eq_true, decide_eq_true_eq]
  exact ⟨⟨⟨hr, hp⟩, hd⟩, ht⟩

theorem Emit_eq_ite (entries : List EntryBuilder) (tss : Int) (t2 : Int)
    (l2 : List EntryBuilder)
    (htrim : trimEntries tss (removeDuplicates entries) = (t2, l2)) :
    Emit entries tss =
      if configValid (deriveEmitConfig l2 t2) then some (serializeBytes l2 t2)
      else none := by
  simp only [Emit]
  rw [htrim]

/-- C1.  Round trip: for a builder fed entries with strictly increasing
pc offsets, arbitrary register masks and stack-slot index lists, and
trampoline/deopt data satisfying the builder invariants (trampolines
above every pc, trampoline and deopt index co-present), `Emit` succeeds
and, for every original entry, `FindEntry` at the pc of that entry returns a
decoded entry whose register mask equals the original mask and whose
decoded slot set is exactly the original slot set shifted down by the
uniform trim amount. -/
theorem c1_round_trip (entries : List EntryBuilder) (tagged_slots_size : Int)
    (hsort : List.Pairwise (fun a b => a.pc < b.pc) entries)
    (hbounds : EntryBounds tagged_slots_size entries)
    (htramp : ∀ e ∈ entries, e.trampoline = -1 ∨ ∀ e2 ∈ entries, e2.pc < e.trampoline)
    (hco : ∀ e ∈ entries, (e.trampoline = -1 ↔ e.deopt_index = -1))
    (htss0 : 0 ≤ tagged_slots_size) (htss1 : tagged_slots_size ≤ 2 ^ 24)
    (hn : entries.length < 2 ^ 31) :
    ∃ bytes, Emit entries tagged_slots_size = some bytes ∧
      ∀ e ∈ entries, ∃ d, FindEntry bytes e.pc = some d ∧
        d.tagged_register_indexes = e.register_indexes ∧
        (∀ s : Int, 0 ≤ s →
          s < tagged_slots_size - trimmedBy entries tagged_slots_size →
          ((slotBit d.tagged_slots
              (tagged_slots_size - trimmedBy entries tagged_slots_size) s = true) ↔
            (s + trimmedBy entries tagged_slots_size) ∈ e.stack_indexes)) := by
  have hb1 : EntryBounds tagged_slots_size (removeDuplicates entries) :=
    EntryBounds_sub _ entries _ hbounds (mem_removeDuplicates entries)
  obtain ⟨m, hm0, hmt, htrim, hlb⟩ :=
    trimEntries_spec tagged_slots_size (removeDuplicates entries) htss0
      (fun e he => (hb1 e he).2.2.2.2.2.2.2)
  have hTB : trimmedBy entries tagged_slots_size = m := by
    unfold trimmedBy
    rw [htrim]
    show tagged_slots_size - (tagged_slots_size - m) = m
    omega
  have hb2 : EntryBounds (tagged_slots_size - m)
      ((removeDuplicates entries).map (fun e =>
        { e with stack_indexes := e.stack_indexes.map (fun idx => idx - m) })) :=
    EntryBounds_shift _ m _ hb1 hm0 hlb
  have hn2 : ((removeDuplicates entries).map (fun e =>
      { e with stack_indexes := e.stack_indexes.map (fun idx => idx - m) })).length
      < 2 ^ 31 := by
    rw [List.length_map]
    exact lt_of_le_of_lt (length_removeDuplicates entries) hn
  have htsb : (deriveEmitConfig
      ((removeDuplicates entries).map (fun e =>
        { e with stack_indexes := e.stack_indexes.map (fun idx => idx - m) }))
      (tagged_slots_size - m)).tagged_slots_bytes < 2 ^ 22 := by
    show ((tagged_slots_size - m).toNat + 8 - 1) / 8 < 2 ^ 22
    omega
  have hemit : Emit entries tagged_slots_size = some (serializeBytes
      ((removeDuplicates entries).map (fun e =>
        { e with stack_indexes := e.stack_indexes.map (fun idx => idx - m) }))
      (tagged_slots_size - m)) := by
    rw [Emit_eq_ite entries _ _ _ htrim, if_pos (configValid_of_tsb _ _ htsb)]
  refine ⟨_, hemit, ?_⟩
  intro e he
  obtain ⟨hr, hp, hd⟩ := deriveSizes_lt
    ((removeDuplicates entries).map (fun e =>
      { e with stack_indexes := e.stack_indexes.map (fun idx => idx - m) }))
    (tagged_slots_size - m)
  have hcfg := serialize_tableConfig _ _ hr hp hd htsb
  have hdd : cfgHasDeoptData (tableConfig (serializeBytes
      ((removeDuplicates entries).map (fun e =>
        { e with stack_indexes := e.stack_indexes.map (fun idx => idx - m) }))
      (tagged_slots_size - m))) =
      (deriveEmitConfig
        ((removeDuplicates entries).map (fun e =>
          { e with stack_indexes := e.stack_indexes.map (fun idx => idx - m) }))
        (tagged_slots_size - m)).has_deopt_data := by
    rw [hcfg]
    exact cfgHasDeoptData_encode _ hr hp hd
  have hdec := serialize_decodeTable _ _ hb2 hn2 htsb
  have htrall : ∀ d ∈ decodeTable (serializeBytes
      ((removeDuplicates entries).map (fun e =>
        { e with stack_indexes := e.stack_indexes.map (fun idx => idx - m) }))
      (tagged_slots_size - m)),
      d.trampoline_pc = -1 ∨ e.pc < d.trampoline_pc := by
    rw [hdec]
    intro d hdmem
    obtain ⟨e2, he2, rfl⟩ := List.mem_map.mp hdmem
    obtain ⟨e3, he3, rfl⟩ := List.mem_map.mp he2
    simp only [decodedOf]
    cases hdd2 : (deriveEmitConfig
        ((removeDuplicates entries).map (fun e =>
          { e with stack_indexes := e.stack_indexes.map (fun idx => idx - m) }))
        (tagged_slots_size - m)).has_deopt_data with
    | false =>
      simp [hdd2]
    | true =>
      simp only [hdd2, if_true]
      rcases htramp e3 (mem_removeDuplicates entries e3 he3) with h1 | h1
      · exact Or.inl h1
      · exact Or.inr (h1 e he)
  have hscan := trampolineScan_none _ e.pc htrall
  obtain ⟨kept, rest, hentries⟩ : ∃ kept rest, entries = kept :: rest := by
    cases hcase : entries with
    | nil =>
      rw [hcase] at he
      cases he
    | cons a b => exact ⟨a, b, rfl⟩
  have hE1 : removeDuplicates entries = kept :: dedupScan kept rest := by
    rw [hentries]
    rfl
  obtain ⟨h, hcover, hident, hmemK⟩ :=
    coverScan_dedupScan rest kept (hentries ▸ hsort) e (hentries ▸ he)
  have hcover2 : coverScan (removeDuplicates entries) e.pc = some h := by
    rw [hE1]
    exact hcover
  have hmemE1 : h ∈ removeDuplicates entries := by
    rw [hE1]
    exact hmemK
  have hFL : findLinear (decodeTable (serializeBytes
      ((removeDuplicates entries).map (fun e =>
        { e with stack_indexes := e.stack_indexes.map (fun idx => idx - m) }))
      (tagged_slots_size - m))) e.pc =
      some (decodedOf
        (deriveEmitConfig
          ((removeDuplicates entries).map (fun e =>
            { e with stack_indexes := e.stack_indexes.map (fun idx => idx - m) }))
          (tagged_slots_size - m))
        (tagged_slots_size - m)
        { h with stack_indexes := h.stack_indexes.map (fun idx => idx - m) }) := by
    rw [hdec, findLinear_map
        (decodedOf
          (deriveEmitConfig
            ((removeDuplicates entries).map (fun e =>
              { e with stack_indexes := e.stack_indexes.map (fun idx => idx - m) }))
            (tagged_slots_size - m))
          (tagged_slots_size - m))
        (fun e2 => rfl),
      coverScan_map
        (fun e => { e with stack_indexes := e.stack_indexes.map (fun idx => idx - m) })
        (fun e2 => rfl),
      hcover2]
    rfl
  have hFE : FindEntry (serializeBytes
      ((removeDuplicates entries).map (fun e =>
        { e with stack_indexes := e.stack_indexes.map (fun idx => idx - m) }))
      (tagged_slots_size - m)) e.pc =
      some (decodedOf
        (deriveEmitConfig
          ((removeDuplicates entries).map (fun e =>
            { e with stack_indexes := e.stack_indexes.map (fun idx => idx - m) }))
          (tagged_slots_size - m))
        (tagged_slots_size - m)
        { h with stack_indexes := h.stack_indexes.map (fun idx => idx - m) }) := by
    unfold FindEntry findEntryCore
    rw [hdd]
    have hnone : (if (deriveEmitConfig
        ((removeDuplicates entries).map (fun e =>
          { e with stack_indexes := e.stack_indexes.map (fun idx => idx - m) }))
        (tagged_slots_size - m)).has_deopt_data then
        trampolineScan (decodeTable (serializeBytes
          ((removeDuplicates entries).map (fun e =>
            { e with stack_indexes := e.stack_indexes.map (fun idx => idx - m) }))
          (tagged_slots_size - m))) e.pc none else none) = none := by
      split
      · exact hscan
      · rfl
    rw [hnone]
    exact hFL
  obtain ⟨hdi, hsl_eq, hrg⟩ := (ident_iff e h).mp hident
  refine ⟨_, hFE, hrg.symm, ?_⟩
  rw [hTB]
  intro s hs0 hs1
  have hshmem : { h with stack_indexes := h.stack_indexes.map (fun idx => idx - m) } ∈
      (removeDuplicates entries).map (fun e =>
        { e with stack_indexes := e.stack_indexes.map (fun idx => idx - m) }) :=
    List.mem_map.mpr ⟨h, hmemE1, rfl⟩
  have hslots2 := (hb2 _ hshmem).2.2.2.2.2.2.2
  have hiff := slotBit_entryBitmapBytes
    (deriveEmitConfig
      ((removeDuplicates entries).map (fun e =>
        { e with stack_indexes := e.stack_indexes.map (fun idx => idx - m) }))
      (tagged_slots_size - m))
    (tagged_slots_size - m)
    { h with stack_indexes := h.stack_indexes.map (fun idx => idx - m) } s hslots2
    (by
      show (tagged_slots_size - m).toNat ≤
        8 * (((tagged_slots_size - m).toNat + 8 - 1) / 8)
      omega)
    hs0 hs1
  rw [show (decodedOf
      (deriveEmitConfig
        ((removeDuplicates entries).map (fun e =>
          { e with stack_indexes := e.stack_indexes.map (fun idx => idx - m) }))
        (tagged_slots_size - m))
      (tagged_slots_size - m)
      { h with stack_indexes := h.stack_indexes.map (fun idx => idx - m) }).tagged_slots =
    entryBitmapBytes (tagged_slots_size - m)
      (deriveEmitConfig
        ((removeDuplicates entries).map (fun e =>
          { e with stack_indexes := e.stack_indexes.map (fun idx => idx - m) }))
        (tagged_slots_size - m))
      { h with stack_indexes := h.stack_indexes.map (fun idx => idx - m) } from rfl]
  rw [hiff]
  show s ∈ h.stack_indexes.map (fun idx => idx - m) ↔ s + m ∈ e.stack_indexes
  constructor
  · intro hsm
    obtain ⟨idx, hidx, hval⟩ := List.mem_map.mp hsm
    have hidx2 : idx = s + m := by omega
    rw [hsl_eq]
    rw [← hidx2]
    exact hidx
  · intro hsm
    rw [hsl_eq] at hsm
    exact List.mem_map.mpr ⟨s + m, hsm, by omega⟩

theorem findLinear_at (L : List SafepointEntry) (o : Int) (i : Nat) (hi : i < L.length)
    (hsort : List.Pairwise (fun a b => a.pc < b.pc) L)
    (hle : (L.get ⟨i, hi⟩).pc ≤ o)
    (hub : i + 1 = L.length ∨
      ∃ h2 : i + 1 < L.length, o < (L.get ⟨i + 1, h2⟩).pc) :
    findLinear L o = some (L.get ⟨i, hi⟩) := by
  induction L generalizing i with
  | nil => cases hi
  | cons a rest ih =>
    cases rest with
    | nil =>
      cases i with
      | zero => rfl
      | succ j =>
        simp only [List.length_cons, List.length_nil] at hi
        omega
    | cons b rest2 =>
      cases i with
      | zero =>
        rcases hub with h1 | ⟨h2, h3⟩
        · simp only [List.length_cons] at h1
          omega
        · have hgt : b.pc > o := h3
          simp only [findLinear, if_pos hgt]
          rfl
      | succ j =>
        have hsort2 : List.Pairwise (fun x y => x.pc < y.pc) (b :: rest2) :=
          (List.pairwise_cons.mp hsort).2
        have hnotgt : ¬ b.pc > o := by
          have hble : b.pc ≤ ((a :: b :: rest2).get ⟨j + 1, hi⟩).pc := by
            cases j with
            | zero => exact le_refl _
            | succ k =>
              have hmem : ((a :: b :: rest2).get ⟨k + 1 + 1, hi⟩) ∈ rest2 := by
                show ((b :: rest2).get ⟨k + 1, by
                  simp only [List.length_cons] at hi ⊢; omega⟩) ∈ rest2
                show (rest2.get ⟨k, by
                  simp only [List.length_cons] at hi ⊢; omega⟩) ∈ rest2
                exact List.get_mem rest2 _ _
              have := (List.pairwise_cons.mp hsort2).1 _ hmem
              omega
          omega
        simp only [findLinear, if_neg hnotgt]
        have hj : j < (b :: rest2).length := by
          simp only [List.length_cons] at hi ⊢
          omega
        have hgeteq : (b :: rest2).get ⟨j, hj⟩ = (a :: b :: rest2).get ⟨j + 1, hi⟩ := rfl
        rw [← hgeteq] at hle
        have hub2 : j + 1 = (b :: rest2).length ∨
            ∃ h2 : j + 1 < (b :: rest2).length, o < ((b :: rest2).get ⟨j + 1, h2⟩).pc := by
          rcases hub with h1 | ⟨h2, h3⟩
          · left
            simp only [List.length_cons] at h1 ⊢
            omega
          · right
            refine ⟨by simp only [List.length_cons] at h2 ⊢; omega, ?_⟩
            exact h3
        rw [ih j hj hsort2 hle hub2]
        rw [hgeteq]

theorem ident_trans (a b c : EntryBuilder)
    (h1 : is_identical_except_for_pc a b = true)
    (h2 : is_identical_except_for_pc b c = true) :
    is_identical_except_for_pc a c = true := by
  rw [ident_iff] at h1 h2 ⊢
  exact ⟨h1.1.trans h2.1, h1.2.1.trans h2.2.1, h1.2.2.trans h2.2.2⟩

theorem dedupScan_merge (kept : EntryBuilder) (l1 : List EntryBuilder)
    (a b : EntryBuilder) (l2 : List EntryBuilder)
    (hident : is_identical_except_for_pc b a = true) :
    dedupScan kept (l1 ++ a :: b :: l2) = dedupScan kept (l1 ++ a :: l2) := by
  induction l1 generalizing kept with
  | nil =>
    simp only [List.nil_append]
    cases hak : is_identical_except_for_pc a kept with
    | true =>
      have hbk : is_identical_except_for_pc b kept = true :=
        ident_trans b a kept hident hak
      simp [dedupScan, hak, hbk]
    | false =>
      simp [dedupScan, hak, hident]
  | cons x t ih =>
    simp only [List.cons_append, dedupScan]
    cases hxk : is_identical_except_for_pc x kept with
    | true => simpa using ih kept
    | false => simp [ih x]

/-- C5 counterexample: two consecutive entries whose stack-index
collections are equal as sets (each contains exactly the indexes 0 and
2) but were registered in different orders, with equal deopt index and
register mask; the claim predicts a merge, but `RemoveDuplicates` keeps
both entries because the comparison is the order-sensitive
`std::equal`. -/
theorem c5_counterexample :
    (([0, 2] : List Int).all (fun x => ([2, 0] : List Int).contains x) = true) ∧
    (([2, 0] : List Int).all (fun x => ([0, 2] : List Int).contains x) = true) ∧
    is_identical_except_for_pc
      ⟨4, -1, -1, 0, [2, 0]⟩ ⟨0, -1, -1, 0, [0, 2]⟩ = false ∧
    removeDuplicates
      [⟨0, -1, -1, 0, [0, 2]⟩, ⟨4, -1, -1, 0, [2, 0]⟩] =
      [⟨0, -1, -1, 0, [0, 2]⟩, ⟨4, -1, -1, 0, [2, 0]⟩] := by
  decide

/-- C5 (amended).  Mergeability is order-sensitive sequence equality:
for every pair of consecutive entries with the same `deopt_index`, the
same register mask, and stack-index lists that are elementwise equal in
registration order (the `std::equal` test), `RemoveDuplicates` merges
the second entry into the first. -/
theorem c5_merge_adjacent (l1 : List EntryBuilder) (a b : EntryBuilder)
    (l2 : List EntryBuilder)
    (hdeopt : b.deopt_index = a.deopt_index)
    (hslots : b.stack_indexes = a.stack_indexes)
    (hmask : b.register_indexes = a.register_indexes) :
    removeDuplicates (l1 ++ a :: b :: l2) = removeDuplicates (l1 ++ a :: l2) := by
  have hident : is_identical_except_for_pc b a = true :=
    (ident_iff b a).mpr ⟨hdeopt, hslots, hmask⟩
  cases l1 with
  | nil =>
    simp only [List.nil_append, removeDuplicates]
    simp [dedupScan, hident]
  | cons x t =>
    simp only [List.cons_append, removeDuplicates]
    rw [dedupScan_merge x t a b l2 hident]

/-- C5 witness: merging two concretely identical-except-for-pc adjacent
entries. -/
theorem c5_merge_adjacent_witness :
    removeDuplicates
      [⟨0, -1, -1, 7, [1, 3]⟩, ⟨4, -1, -1, 7, [1, 3]⟩] =
      removeDuplicates [⟨0, -1, -1, 7, [1, 3]⟩] :=
  c5_merge_adjacent [] ⟨0, -1, -1, 7, [1, 3]⟩ ⟨4, -1, -1, 7, [1, 3]⟩ []
    rfl rfl rfl

/-- C2 counterexample: a finalized table with strictly increasing pcs
(0, 10) and a single trampoline 1000 attached to the first entry (so
every trampoline exceeds the largest pc).  For offset 2000 the last
entry (index 1, pc 10) satisfies "entry pc ≤ offset and i is the last
entry", so the claim predicts entry 1; but the trampoline candidate
scan selects the deopt-bearing entry 0 (trampoline 1000 ≤ 2000) and
`FindEntry` returns it instead. -/
theorem c2_counterexample :
    Emit [⟨0, 1000, 0, 0, []⟩, ⟨10, -1, -1, 0, []⟩] 0 =
      some [2, 0, 0, 0, 161, 0, 0, 0, 0, 0, 1, 233, 3, 10, 0, 0, 0, 0] ∧
    tableLength [2, 0, 0, 0, 161, 0, 0, 0, 0, 0, 1, 233, 3, 10, 0, 0, 0, 0] = 2 ∧
    (GetEntry [2, 0, 0, 0, 161, 0, 0, 0, 0, 0, 1, 233, 3, 10, 0, 0, 0, 0] 0).pc = 0 ∧
    (GetEntry [2, 0, 0, 0, 161, 0, 0, 0, 0, 0, 1, 233, 3, 10, 0, 0, 0, 0] 0).trampoline_pc
      = 1000 ∧
    (GetEntry [2, 0, 0, 0, 161, 0, 0, 0, 0, 0, 1, 233, 3, 10, 0, 0, 0, 0] 1).pc = 10 ∧
    (GetEntry [2, 0, 0, 0, 161, 0, 0, 0, 0, 0, 1, 233, 3, 10, 0, 0, 0, 0] 1).trampoline_pc
      = -1 ∧
    FindEntry [2, 0, 0, 0, 161, 0, 0, 0, 0, 0, 1, 233, 3, 10, 0, 0, 0, 0] 2000 =
      some (GetEntry [2, 0, 0, 0, 161, 0, 0, 0, 0, 0, 1, 233, 3, 10, 0, 0, 0, 0] 0) ∧
    FindEntry [2, 0, 0, 0, 161, 0, 0, 0, 0, 0, 1, 233, 3, 10, 0, 0, 0, 0] 2000 ≠
      some (GetEntry [2, 0, 0, 0, 161, 0, 0, 0, 0, 0, 1, 233, 3, 10, 0, 0, 0, 0] 1) := by
  decide

/-- C2 (amended).  Sortedness and point lookup: in a finalized table
with strictly increasing pcs, for any offset `o` at or above the pc of entry `i`, such that `i` is the last entry or `o` is below the pc of entry `i+1`, and such that `o` is below every defined trampoline of the table,
the trampoline candidate scan selects nothing and `FindEntry` returns
entry `i`.  (Without the last condition the claim fails: for `i` the
last entry, `o` may reach a trampoline and the trampoline path wins,
see the counterexample.) -/
theorem c2_sorted_lookup (has_deopt_data : Bool)
    (entries : List SafepointEntry) (o : Int) (i : Nat) (hi : i < entries.length)
    (hsort : List.Pairwise (fun a b => a.pc < b.pc) entries)
    (hle : (entries.get ⟨i, hi⟩).pc ≤ o)
    (hub : i + 1 = entries.length ∨
      ∃ h2 : i + 1 < entries.length, o < (entries.get ⟨i + 1, h2⟩).pc)
    (htr : ∀ e ∈ entries, e.trampoline_pc = -1 ∨ o < e.trampoline_pc) :
    trampolineScan entries o none = none ∧
    findEntryCore has_deopt_data entries o = some (entries.get ⟨i, hi⟩) := by
  have hs := trampolineScan_none entries o htr
  refine ⟨hs, ?_⟩
  unfold findEntryCore
  have hnone : (if has_deopt_data then trampolineScan entries o none else none) = none := by
    cases has_deopt_data with
    | false => rfl
    | true => exact hs
  rw [hnone]
  exact findLinear_at entries o i hi hsort hle hub

/-- C2 witness: lookup at offset 7 in a two-entry table with pcs 0 and
10 returns entry 0. -/
theorem c2_sorted_lookup_witness :
    trampolineScan [⟨0, -1, -1, 0, []⟩, ⟨10, -1, -1, 0, []⟩] 7 none = none ∧
    findEntryCore false [⟨0, -1, -1, 0, []⟩, ⟨10, -1, -1, 0, []⟩] 7 =
      some ⟨0, -1, -1, 0, []⟩ :=
  c2_sorted_lookup false [⟨0, -1, -1, 0, []⟩, ⟨10, -1, -1, 0, []⟩] 7 0 (by decide)
    (by decide) (by decide) (Or.inr ⟨by decide, by decide⟩) (by decide)

/-- C3.  Trampoline precedence: when the table carries deopt data and
the trampoline candidate scan finds a candidate, `FindEntry` returns it
immediately (and the candidate indeed has a defined trampoline
`≤` the queried offset); concretely, with an ordinary entry at pc 10
and trampoline 1000 attached to a later entry at pc 20, lookup at
offset 1000 returns the deopt-bearing entry through the trampoline
path. -/
theorem c3_trampoline_precedence :
    (∀ (entries : List SafepointEntry) (o : Int) (c : SafepointEntry),
      trampolineScan entries o none = some c →
        findEntryCore true entries o = some c ∧
        c.trampoline_pc ≠ -1 ∧ c.trampoline_pc ≤ o) ∧
    Emit [⟨10, -1, -1, 0, []⟩, ⟨20, 1000, 0, 0, []⟩] 0 =
      some [2, 0, 0, 0, 161, 0, 0, 0, 10, 0, 0, 0, 0, 20, 0, 1, 233, 3] ∧
    FindEntry [2, 0, 0, 0, 161, 0, 0, 0, 10, 0, 0, 0, 0, 20, 0, 1, 233, 3] 1000 =
      some ⟨20, 1000, 0, 0, []⟩ ∧
    trampolineScan
      (decodeTable [2, 0, 0, 0, 161, 0, 0, 0, 10, 0, 0, 0, 0, 20, 0, 1, 233, 3])
      1000 none = some ⟨20, 1000, 0, 0, []⟩ := by
  refine ⟨?_, by decide, by decide, by decide⟩
  intro entries o c hscan
  refine ⟨?_, trampolineScan_result entries o none c
    (fun a ha => Option.noConfusion ha) hscan⟩
  unfold findEntryCore
  rw [if_pos rfl, hscan]

/-- C3 witness: the general trampoline-precedence statement applied to
the concrete two-entry decoded table at offset 1000. -/
theorem c3_trampoline_precedence_witness :
    findEntryCore true
      [⟨10, -1, -1, 0, []⟩, ⟨20, 1000, 0, 0, []⟩] 1000 =
      some ⟨20, 1000, 0, 0, []⟩ ∧
    (⟨20, 1000, 0, 0, []⟩ : SafepointEntry).trampoline_pc ≠ -1 ∧
    (⟨20, 1000, 0, 0, []⟩ : SafepointEntry).trampoline_pc ≤ 1000 :=
  c3_trampoline_precedence.1 [⟨10, -1, -1, 0, []⟩, ⟨20, 1000, 0, 0, []⟩] 1000
    ⟨20, 1000, 0, 0, []⟩ (by decide)

/-- C4.  Deduplication collapses a maximal run of mutually mergeable
consecutive entries to its first member: entries at pcs 0, 4 and 8 with
identical slot lists, register masks and deopt data collapse to a
single entry with pc 0, and `FindEntry` at offsets 0, 4, 8 and beyond
returns that single entry. -/
theorem c4_dedup_collapse :
    removeDuplicates
      [⟨0, -1, -1, 5, [1, 2]⟩, ⟨4, -1, -1, 5, [1, 2]⟩, ⟨8, -1, -1, 5, [1, 2]⟩] =
      [⟨0, -1, -1, 5, [1, 2]⟩] ∧
    Emit [⟨0, -1, -1, 5, [1, 2]⟩, ⟨4, -1, -1, 5, [1, 2]⟩, ⟨8, -1, -1, 5, [1, 2]⟩] 3 =
      some [1, 0, 0, 0, 18, 4, 0, 0, 0, 5, 3] ∧
    tableLength [1, 0, 0, 0, 18, 4, 0, 0, 0, 5, 3] = 1 ∧
    (GetEntry [1, 0, 0, 0, 18, 4, 0, 0, 0, 5, 3] 0).pc = 0 ∧
    FindEntry [1, 0, 0, 0, 18, 4, 0, 0, 0, 5, 3] 0 =
      some (GetEntry [1, 0, 0, 0, 18, 4, 0, 0, 0, 5, 3] 0) ∧
    FindEntry [1, 0, 0, 0, 18, 4, 0, 0, 0, 5, 3] 4 =
      some (GetEntry [1, 0, 0, 0, 18, 4, 0, 0, 0, 5, 3] 0) ∧
    FindEntry [1, 0, 0, 0, 18, 4, 0, 0, 0, 5, 3] 8 =
      some (GetEntry [1, 0, 0, 0, 18, 4, 0, 0, 0, 5, 3] 0) ∧
    FindEntry [1, 0, 0, 0, 18, 4, 0, 0, 0, 5, 3] 100 =
      some (GetEntry [1, 0, 0, 0, 18, 4, 0, 0, 0, 5, 3] 0) := by
  decide

/-- C7 counterexample: a table in which no register is ever live.  The
claim says the register-mask width is "the minimal byte width in the
range 1-4"; but `value_to_bytes(0) = 0`, so the encoded
`register_indexes_size` is 0, outside that range. -/
theorem c7_counterexample :
    Emit [⟨0, -1, -1, 0, []⟩] 0 = some [1, 0, 0, 0, 16, 0, 0, 0, 0] ∧
    usedRegisterIndexes [⟨0, -1, -1, 0, []⟩] = 0 ∧
    (deriveEmitConfig [⟨0, -1, -1, 0, []⟩] 0).register_indexes_size = 0 ∧
    cfgRegisterIndexesSize (tableConfig [1, 0, 0, 0, 16, 0, 0, 0, 0]) = 0 ∧
    ¬ 1 ≤ cfgRegisterIndexesSize (tableConfig [1, 0, 0, 0, 16, 0, 0, 0, 0]) := by
  decide

/-- C7 (amended).  Width derivation: `value_to_bytes` maps 0 to width 0
and any positive representable value to the minimal byte width in the
range 1-4 that represents it; the bitmap width is
`ceil(tagged_slots_size / 8)`; a table whose maximum register-mask
value is 300 encodes `register_indexes_size = 2`; and a table without
deopt data encodes `has_deopt_data = false` with records containing
only the pc and register-mask fields. -/
theorem c7_width_derivation :
    (∀ v : Int, 0 < v → v ≤ 0xffffffff →
      1 ≤ value_to_bytes v ∧ value_to_bytes v ≤ 4 ∧
      v.toNat < 256 ^ value_to_bytes v ∧
      256 ^ (value_to_bytes v - 1) ≤ v.toNat) ∧
    value_to_bytes 0 = 0 ∧
    (∀ t : Nat,
      t ≤ 8 * ((t + 8 - 1) / 8) ∧ ∀ k : Nat, t ≤ 8 * k → (t + 8 - 1) / 8 ≤ k) ∧
    (deriveEmitConfig [⟨0, -1, -1, 300, []⟩] 0).register_indexes_size = 2 ∧
    Emit [⟨0, -1, -1, 300, []⟩] 0 = some [1, 0, 0, 0, 20, 0, 0, 0, 0, 44, 1] ∧
    cfgRegisterIndexesSize (tableConfig [1, 0, 0, 0, 20, 0, 0, 0, 0, 44, 1]) = 2 ∧
    cfgHasDeoptData (tableConfig [1, 0, 0, 0, 20, 0, 0, 0, 0, 44, 1]) = false ∧
    entryRecordSize (tableConfig [1, 0, 0, 0, 20, 0, 0, 0, 0, 44, 1]) =
      cfgPcSize (tableConfig [1, 0, 0, 0, 20, 0, 0, 0, 0, 44, 1]) +
      cfgRegisterIndexesSize (tableConfig [1, 0, 0, 0, 20, 0, 0, 0, 0, 44, 1]) := by
  refine ⟨?_, rfl, ?_, by decide, by decide, by decide, by decide, by decide⟩
  · intro v hv0 hv1
    unfold value_to_bytes
    split
    · omega
    · split
      · refine ⟨by omega, by omega, by norm_num; omega, by norm_num; omega⟩
      · split
        · refine ⟨by omega, by omega, by norm_num; omega, by norm_num; omega⟩
        · split
          · refine ⟨by omega, by omega, by norm_num; omega, by norm_num; omega⟩
          · refine ⟨by omega, by omega, by norm_num; omega, by norm_num; omega⟩
  · intro t
    refine ⟨by omega, ?_⟩
    intro k hk
    omega

/-- C7 witness: the amended width bounds evaluated at the value 300,
which needs exactly 2 bytes. -/
theorem c7_width_derivation_witness :
    1 ≤ value_to_bytes 300 ∧ value_to_bytes 300 ≤ 4 ∧
    (300 : Int).toNat < 256 ^ value_to_bytes 300 ∧
    256 ^ (value_to_bytes 300 - 1) ≤ (300 : Int).toNat :=
  c7_width_derivation.1 300 (by decide) (by decide)

/-- C8.  Serialized layout: after the 8-byte header each record packs
pc, optional biased deopt/trampoline, and register mask at the derived
widths with no padding (the record length is exactly the sum of the
field widths), and the per-entry bitmap sets bit
`(tagged_slots_size - 1 - slot) % 8` of byte
`(tagged_slots_size - 1 - slot) / 8`.  The end-to-end scenario
pcs {0: slots {0,2}}, {5: slots {0,2}, regs mask 2}, {9: no slots}
with `Emit(3)` yields exactly the predicted byte stream: 3 entries,
`pc_size` 1, one bitmap byte per entry, bitmaps 0b101, 0b101, 0b000. -/
theorem c8_serialized_layout :
    (∀ (c : EmitConfig) (e : EntryBuilder),
      (entryRecordBytes c e).length =
        c.pc_size +
        (if c.has_deopt_data then c.deopt_index_size + c.pc_size else 0) +
        c.register_indexes_size) ∧
    Emit [⟨0, -1, -1, 0, [0, 2]⟩, ⟨5, -1, -1, 2, [0, 2]⟩, ⟨9, -1, -1, 0, []⟩] 3 =
      some [3, 0, 0, 0, 18, 4, 0, 0, 0, 0, 5, 2, 9, 0, 5, 5, 0] ∧
    tableLength [3, 0, 0, 0, 18, 4, 0, 0, 0, 0, 5, 2, 9, 0, 5, 5, 0] = 3 ∧
    cfgPcSize (tableConfig [3, 0, 0, 0, 18, 4, 0, 0, 0, 0, 5, 2, 9, 0, 5, 5, 0]) = 1 ∧
    cfgTaggedSlotsBytes (tableConfig [3, 0, 0, 0, 18, 4, 0, 0, 0, 0, 5, 2, 9, 0, 5, 5, 0])
      = 1 ∧
    cfgHasDeoptData (tableConfig [3, 0, 0, 0, 18, 4, 0, 0, 0, 0, 5, 2, 9, 0, 5, 5, 0])
      = false ∧
    decodeTable [3, 0, 0, 0, 18, 4, 0, 0, 0, 0, 5, 2, 9, 0, 5, 5, 0] =
      [⟨0, -1, -1, 0, [5]⟩, ⟨5, -1, -1, 2, [5]⟩, ⟨9, -1, -1, 0, [0]⟩] ∧
    slotBit [5] 3 0 = true ∧ slotBit [5] 3 1 = false ∧ slotBit [5] 3 2 = true ∧
    slotBit [0] 3 0 = false ∧ slotBit [0] 3 1 = false ∧ slotBit [0] 3 2 = false := by
  refine ⟨length_entryRecordBytes, ?_⟩
  decide

/-- C9.  Capacity overflow is fatal and exhaustive: `Emit` produces a
table exactly when each of the four derived field widths fits the bits
allotted to it in the configuration word (the `CHECK` is the only
failure path), and the three `value_to_bytes`-derived widths always
fit, so only an oversized tagged-slot bitmap can trigger the failure. -/
theorem c9_capacity_check (entries : List EntryBuilder) (tagged_slots_size : Int) :
    ((Emit entries tagged_slots_size).isSome = true ↔
      configValid (deriveEmitConfig
        (trimEntries tagged_slots_size (removeDuplicates entries)).2
        (trimEntries tagged_slots_size (removeDuplicates entries)).1) = true) ∧
    (deriveEmitConfig
      (trimEntries tagged_slots_size (removeDuplicates entries)).2
      (trimEntries tagged_slots_size (removeDuplicates entries)).1).register_indexes_size
      < 2 ^ 3 ∧
    (deriveEmitConfig
      (trimEntries tagged_slots_size (removeDuplicates entries)).2
      (trimEntries tagged_slots_size (removeDuplicates entries)).1).pc_size < 2 ^ 3 ∧
    (deriveEmitConfig
      (trimEntries tagged_slots_size (removeDuplicates entries)).2
      (trimEntries tagged_slots_size (removeDuplicates entries)).1).deopt_index_size
      < 2 ^ 3 := by
  obtain ⟨hr, hp, hd⟩ := deriveSizes_lt
    (trimEntries tagged_slots_size (removeDuplicates entries)).2
    (trimEntries tagged_slots_size (removeDuplicates entries)).1
  refine ⟨?_, hr, hp, hd⟩
  rw [Emit_eq_ite entries tagged_slots_size
    (trimEntries tagged_slots_size (removeDuplicates entries)).1
    (trimEntries tagged_slots_size (removeDuplicates entries)).2 rfl]
  cases h : configValid (deriveEmitConfig
      (trimEntries tagged_slots_size (removeDuplicates entries)).2
      (trimEntries tagged_slots_size (removeDuplicates entries)).1) with
  | false => simp [h]
  | true => simp [h]

theorem trimEntries_subtract (tagged_slots_size : Int) (l : List EntryBuilder) (m : Int)
    (hb : ∀ e ∈ l, ∀ idx ∈ e.stack_indexes, 0 ≤ idx ∧ idx < tagged_slots_size)
    (hmem : ∃ e ∈ l, m ∈ e.stack_indexes)
    (hlb : ∀ e ∈ l, ∀ idx ∈ e.stack_indexes, m ≤ idx)
    (hm : 0 < m) :
    trimEntries tagged_slots_size l =
      (tagged_slots_size - m, l.map (fun e =>
        { e with stack_indexes := e.stack_indexes.map (fun idx => idx - m) })) := by
  obtain ⟨e0, he0, hm0⟩ := hmem
  have hmtss : m < tagged_slots_size := (hb e0 he0 m hm0).2
  have hnn : ∀ x ∈ l.flatMap (fun e => e.stack_indexes), 0 ≤ x := by
    intro x hx
    obtain ⟨e, he, hxe⟩ := List.mem_flatMap.mp hx
    exact (hb e he x hxe).1
  have h0 : (0 : Int) ∉ l.flatMap (fun e => e.stack_indexes) := by
    intro hx
    obtain ⟨e, he, hxe⟩ := List.mem_flatMap.mp hx
    have := hlb e he 0 hxe
    omega
  unfold trimEntries
  rw [if_neg (by omega), scanMinIndex_no_zero _ _ (by omega) hnn h0]
  have hfold : (l.flatMap (fun e => e.stack_indexes)).foldl min tagged_slots_size = m :=
    le_antisymm
      (foldl_min_le_mem _ _ _ (List.mem_flatMap.mpr ⟨e0, he0, hm0⟩))
      (le_foldl_min _ _ _ (by omega) (fun x hx => by
        obtain ⟨e, he, hxe⟩ := List.mem_flatMap.mp hx
        exact hlb e he x hxe))
  rw [hfold]

/-- C6.  Trimming correctness.  Part 1: when the minimum referenced
stack-slot index over the (post-dedup) entries is `m > 0`, `TrimEntries`
subtracts `m` from `tagged_slots_size` and from every slot index of
every entry.  Part 2: when some entry references index 0 (minimum 0),
the entries and `tagged_slots_size` are unchanged and the emitted bytes
are identical to an emission without the trim step.  Part 3: after a
nonzero trim the decoded slot set of every table entry is the original
slot set shifted down by `m`. -/
theorem c6_trimming :
    (∀ (tagged_slots_size : Int) (l : List EntryBuilder) (m : Int),
      (∀ e ∈ l, ∀ idx ∈ e.stack_indexes, 0 ≤ idx ∧ idx < tagged_slots_size) →
      (∃ e ∈ l, m ∈ e.stack_indexes) →
      (∀ e ∈ l, ∀ idx ∈ e.stack_indexes, m ≤ idx) →
      0 < m →
      trimEntries tagged_slots_size l =
        (tagged_slots_size - m, l.map (fun e =>
          { e with stack_indexes := e.stack_indexes.map (fun idx => idx - m) }))) ∧
    (∀ (entries : List EntryBuilder) (tagged_slots_size : Int),
      (∀ e ∈ removeDuplicates entries, ∀ idx ∈ e.stack_indexes, 0 ≤ idx) →
      0 ≤ tagged_slots_size →
      (∃ e ∈ removeDuplicates entries, (0 : Int) ∈ e.stack_indexes) →
      trimEntries tagged_slots_size (removeDuplicates entries) =
        (tagged_slots_size, removeDuplicates entries) ∧
      Emit entries tagged_slots_size = EmitUntrimmed entries tagged_slots_size) ∧
    (∀ (entries : List EntryBuilder) (tagged_slots_size m : Int),
      EntryBounds tagged_slots_size entries →
      0 ≤ tagged_slots_size → tagged_slots_size ≤ 2 ^ 24 →
      entries.length < 2 ^ 31 →
      (∃ e ∈ removeDuplicates entries, m ∈ e.stack_indexes) →
      (∀ e ∈ removeDuplicates entries, ∀ idx ∈ e.stack_indexes, m ≤ idx) →
      0 < m →
      ∃ bytes, Emit entries tagged_slots_size = some bytes ∧
        ∀ (i : Nat) (hi : i < (removeDuplicates entries).length),
          ∀ s : Int, 0 ≤ s → s < tagged_slots_size - m →
            ((slotBit (GetEntry bytes i).tagged_slots (tagged_slots_size - m) s
              = true) ↔
              (s + m) ∈ ((removeDuplicates entries).get ⟨i, hi⟩).stack_indexes)) := by
  refine ⟨trimEntries_subtract, ?_, ?_⟩
  · intro entries tagged_slots_size hnn htss h0
    have hnnflat : ∀ x ∈ (removeDuplicates entries).flatMap (fun e => e.stack_indexes),
        0 ≤ x := by
      intro x hx
      obtain ⟨e, he, hxe⟩ := List.mem_flatMap.mp hx
      exact hnn e he x hxe
    have h0flat : (0 : Int) ∈
        (removeDuplicates entries).flatMap (fun e => e.stack_indexes) := by
      obtain ⟨e, he, hxe⟩ := h0
      exact List.mem_flatMap.mpr ⟨e, he, hxe⟩
    have htrim : trimEntries tagged_slots_size (removeDuplicates entries) =
        (tagged_slots_size, removeDuplicates entries) := by
      by_cases hz : tagged_slots_size = 0
      · unfold trimEntries
        rw [if_pos hz]
      · unfold trimEntries
        rw [if_neg hz, scanMinIndex_zero_mem _ _ (by omega) hnnflat h0flat]
    refine ⟨htrim, ?_⟩
    rw [Emit_eq_ite entries tagged_slots_size tagged_slots_size
      (removeDuplicates entries) htrim]
    rfl
  · intro entries tagged_slots_size m hbounds htss0 htss1 hn hmem hlb hm
    have hb1 : EntryBounds tagged_slots_size (removeDuplicates entries) :=
      EntryBounds_sub _ entries _ hbounds (mem_removeDuplicates entries)
    have hbslots : ∀ e ∈ removeDuplicates entries, ∀ idx ∈ e.stack_indexes,
        0 ≤ idx ∧ idx < tagged_slots_size :=
      fun e he => (hb1 e he).2.2.2.2.2.2.2
    have htrim := trimEntries_subtract tagged_slots_size (removeDuplicates entries) m
      hbslots hmem hlb hm
    have hmt : m < tagged_slots_size := by
      obtain ⟨e0, he0, hm0⟩ := hmem
      exact (hbslots e0 he0 m hm0).2
    have hb2 : EntryBounds (tagged_slots_size - m)
        ((removeDuplicates entries).map (fun e =>
          { e with stack_indexes := e.stack_indexes.map (fun idx => idx - m) })) :=
      EntryBounds_shift _ m _ hb1 (by omega) hlb
    have hn2 : ((removeDuplicates entries).map (fun e =>
        { e with stack_indexes := e.stack_indexes.map (fun idx => idx - m) })).length
        < 2 ^ 31 := by
      rw [List.length_map]
      exact lt_of_le_of_lt (length_removeDuplicates entries) hn
    have htsb : (deriveEmitConfig
        ((removeDuplicates entries).map (fun e =>
          { e with stack_indexes := e.stack_indexes.map (fun idx => idx - m) }))
        (tagged_slots_size - m)).tagged_slots_bytes < 2 ^ 22 := by
      show ((tagged_slots_size - m).toNat + 8 - 1) / 8 < 2 ^ 22
      omega
    have hemit : Emit entries tagged_slots_size = some (serializeBytes
        ((removeDuplicates entries).map (fun e =>
          { e with stack_indexes := e.stack_indexes.map (fun idx => idx - m) }))
        (tagged_slots_size - m)) := by
      rw [Emit_eq_ite entries _ _ _ htrim, if_pos (configValid_of_tsb _ _ htsb)]
    refine ⟨_, hemit, ?_⟩
    intro i hi s hs0 hs1
    have hi2 : i < ((removeDuplicates entries).map (fun e =>
        { e with stack_indexes := e.stack_indexes.map (fun idx => idx - m) })).length := by
      rw [List.length_map]
      exact hi
    have hGet := serialize_GetEntry _ (tagged_slots_size - m) i hi2 hb2 hn2 htsb
    rw [hGet]
    have hget2 : ((removeDuplicates entries).map (fun e =>
        { e with stack_indexes := e.stack_indexes.map (fun idx => idx - m) })).get
        ⟨i, hi2⟩ =
        { (removeDuplicates entries).get ⟨i, hi⟩ with
          stack_indexes := ((removeDuplicates entries).get ⟨i, hi⟩).stack_indexes.map
            (fun idx => idx - m) } := by
      rw [List.get_eq_getElem, List.get_eq_getElem, List.getElem_map]
    rw [hget2]
    have hmemL2 : { (removeDuplicates entries).get ⟨i, hi⟩ with
        stack_indexes := ((removeDuplicates entries).get ⟨i, hi⟩).stack_indexes.map
          (fun idx => idx - m) } ∈
        (removeDuplicates entries).map (fun e =>
          { e with stack_indexes := e.stack_indexes.map (fun idx => idx - m) }) :=
      List.mem_map.mpr ⟨_, List.get_mem _ i hi, rfl⟩
    have hslots2 := (hb2 _ hmemL2).2.2.2.2.2.2.2
    have hiff := slotBit_entryBitmapBytes
      (deriveEmitConfig
        ((removeDuplicates entries).map (fun e =>
          { e with stack_indexes := e.stack_indexes.map (fun idx => idx - m) }))
        (tagged_slots_size - m))
      (tagged_slots_size - m)
      { (removeDuplicates entries).get ⟨i, hi⟩ with
        stack_indexes := ((removeDuplicates entries).get ⟨i, hi⟩).stack_indexes.map
          (fun idx => idx - m) } s hslots2
      (by
        show (tagged_slots_size - m).toNat ≤
          8 * (((tagged_slots_size - m).toNat + 8 - 1) / 8)
        omega)
      hs0 hs1
    rw [show (decodedOf
        (deriveEmitConfig
          ((removeDuplicates entries).map (fun e =>
            { e with stack_indexes := e.stack_indexes.map (fun idx => idx - m) }))
          (tagged_slots_size - m))
        (tagged_slots_size - m)
        { (removeDuplicates entries).get ⟨i, hi⟩ with
          stack_indexes := ((removeDuplicates entries).get ⟨i, hi⟩).stack_indexes.map
            (fun idx => idx - m) }).tagged_slots =
      entryBitmapBytes (tagged_slots_size - m)
        (deriveEmitConfig
          ((removeDuplicates entries).map (fun e =>
            { e with stack_indexes := e.stack_indexes.map (fun idx => idx - m) }))
          (tagged_slots_size - m))
        { (removeDuplicates entries).get ⟨i, hi⟩ with
          stack_indexes := ((removeDuplicates entries).get ⟨i, hi⟩).stack_indexes.map
            (fun idx => idx - m) } from rfl]
    rw [hiff]
    show s ∈ ((removeDuplicates entries).get ⟨i, hi⟩).stack_indexes.map
      (fun idx => idx - m) ↔ _
    constructor
    · intro hsm
      obtain ⟨idx, hidx, hval⟩ := List.mem_map.mp hsm
      have hidx2 : idx = s + m := by omega
      rw [← hidx2]
      exact hidx
    · intro hsm
      exact List.mem_map.mpr ⟨s + m, hsm, by omega⟩

/-- C6 witness: trimming a concrete two-entry list whose minimum
referenced slot index is 2 subtracts 2 from the size and from every
index. -/
theorem c6_trimming_witness :
    trimEntries 6 [⟨0, -1, -1, 0, [3, 2]⟩, ⟨4, -1, -1, 1, [2, 5]⟩] =
      (6 - 2, [⟨0, -1, -1, 0, [1, 0]⟩, ⟨4, -1, -1, 1, [0, 3]⟩]) := by
  have h := c6_trimming.1 6 [⟨0, -1, -1, 0, [3, 2]⟩, ⟨4, -1, -1, 1, [2, 5]⟩] 2
    (by decide) ⟨⟨0, -1, -1, 0, [3, 2]⟩, by decide, by decide⟩ (by decide) (by decide)
  rw [h]
  decide

theorem flatMap_slots_nil (l : List EntryBuilder)
    (h : ∀ e ∈ l, e.stack_indexes = []) :
    l.flatMap (fun e => e.stack_indexes) = [] := by
  induction l with
  | nil => rfl
  | cons x t ih =>
    simp only [List.flatMap_cons, h x (by simp),
      ih (fun e he => h e (by simp [he])), List.nil_append]

theorem map_shift_of_empty (l : List EntryBuilder) (m : Int)
    (h : ∀ e ∈ l, e.stack_indexes = []) :
    l.map (fun e =>
      { e with stack_indexes := e.stack_indexes.map (fun idx => idx - m) }) = l := by
  induction l with
  | nil => rfl
  | cons x t ih =>
    simp only [List.map_cons, ih (fun e he => h e (by simp [he]))]
    have hx := h x (by simp)
    congr 1
    rw [hx, List.map_nil, ← hx]

/-- C10.  If `tagged_slots_size > 0` but no entry references any
stack-slot index, `TrimEntries` subtracts the whole `tagged_slots_size`
(leaving 0), and the emitted table encodes `tagged_slots_bytes = 0` and
contains no bitmap bytes: the byte stream ends right after the entry
records. -/
theorem c10_all_empty_slots (entries : List EntryBuilder) (tagged_slots_size : Int)
    (hempty : ∀ e ∈ entries, e.stack_indexes = [])
    (htss : 0 < tagged_slots_size) :
    (trimEntries tagged_slots_size (removeDuplicates entries)).1 = 0 ∧
    ∃ bytes, Emit entries tagged_slots_size = some bytes ∧
      cfgTaggedSlotsBytes (tableConfig bytes) = 0 ∧
      bytes.length = 8 + (removeDuplicates entries).length *
        entryRecordSize (tableConfig bytes) := by
  have hempty1 : ∀ e ∈ removeDuplicates entries, e.stack_indexes = [] :=
    fun e he => hempty e (mem_removeDuplicates entries e he)
  have htrim : trimEntries tagged_slots_size (removeDuplicates entries) =
      (0, removeDuplicates entries) := by
    unfold trimEntries
    rw [if_neg (by omega), flatMap_slots_nil _ hempty1]
    show (tagged_slots_size - tagged_slots_size,
      (removeDuplicates entries).map _) = (0, removeDuplicates entries)
    rw [map_shift_of_empty _ _ hempty1]
    congr 1
    omega
  refine ⟨by rw [htrim], ?_⟩
  obtain ⟨hr, hp, hd⟩ := deriveSizes_lt (removeDuplicates entries) 0
  have htsb : (deriveEmitConfig (removeDuplicates entries) 0).tagged_slots_bytes
      < 2 ^ 22 := by
    show ((0 : Int).toNat + 8 - 1) / 8 < 2 ^ 22
    decide
  have hemit : Emit entries tagged_slots_size =
      some (serializeBytes (removeDuplicates entries) 0) := by
    rw [Emit_eq_ite entries _ _ _ htrim, if_pos (configValid_of_tsb _ _ htsb)]
  refine ⟨_, hemit, ?_, ?_⟩
  · rw [serialize_tableConfig _ _ hr hp hd htsb,
      cfgTaggedSlotsBytes_encode _ hr hp hd htsb]
    rfl
  · have hcfg := serialize_tableConfig _ _ hr hp hd htsb
    have hrs : entryRecordSize (tableConfig (serializeBytes (removeDuplicates entries) 0))
        = recordSizeOf (deriveEmitConfig (removeDuplicates entries) 0) := by
      rw [hcfg]
      exact entryRecordSize_encode _ hr hp hd
    rw [hrs, serialize_split]
    have hR : (List.map (entryRecordBytes (deriveEmitConfig (removeDuplicates entries) 0))
        (removeDuplicates entries)).flatten.length =
        (removeDuplicates entries).length *
          recordSizeOf (deriveEmitConfig (removeDuplicates entries) 0) := by
      rw [flatten_length_const (recordSizeOf (deriveEmitConfig (removeDuplicates entries) 0))
        _ (fun r hr2 => by
          obtain ⟨e, he, rfl⟩ := List.mem_map.mp hr2
          exact length_entryRecordBytes_rs _ e), List.length_map]
    have hB : (List.map (entryBitmapBytes 0 (deriveEmitConfig (removeDuplicates entries) 0))
        (removeDuplicates entries)).flatten.length = 0 := by
      rw [flatten_length_const 0 _ (fun b hb => by
        obtain ⟨e, he, rfl⟩ := List.mem_map.mp hb
        rw [length_entryBitmapBytes]
        rfl)]
      omega
    simp only [List.length_append, length_leBytes, hR, hB]
    omega

/-- C10 witness: a single entry at pc 0 with no slot indexes and
`tagged_slots_size = 5`. -/
theorem c10_all_empty_slots_witness :
    (trimEntries 5 (removeDuplicates [⟨0, -1, -1, 0, []⟩])).1 = 0 ∧
    ∃ bytes, Emit [⟨0, -1, -1, 0, []⟩] 5 = some bytes ∧
      cfgTaggedSlotsBytes (tableConfig bytes) = 0 ∧
      bytes.length = 8 + (removeDuplicates [⟨0, -1, -1, 0, []⟩]).length *
        entryRecordSize (tableConfig bytes) :=
  c10_all_empty_slots [⟨0, -1, -1, 0, []⟩] 5 (by decide) (by decide)

/-- C1 witness: a concrete two-entry builder round-trips through `Emit`
and `FindEntry`. -/
theorem c1_round_trip_witness :
    ∃ bytes, Emit [⟨0, -1, -1, 1, [1]⟩, ⟨4, -1, -1, 2, [1, 2]⟩] 3 = some bytes ∧
      ∀ e ∈ ([⟨0, -1, -1, 1, [1]⟩, ⟨4, -1, -1, 2, [1, 2]⟩] : List EntryBuilder),
        ∃ d, FindEntry bytes e.pc = some d ∧
          d.tagged_register_indexes = e.register_indexes ∧
          (∀ s : Int, 0 ≤ s →
            s < 3 - trimmedBy [⟨0, -1, -1, 1, [1]⟩, ⟨4, -1, -1, 2, [1, 2]⟩] 3 →
            ((slotBit d.tagged_slots
                (3 - trimmedBy [⟨0, -1, -1, 1, [1]⟩, ⟨4, -1, -1, 2, [1, 2]⟩] 3) s
                = true) ↔
              (s + trimmedBy [⟨0, -1, -1, 1, [1]⟩, ⟨4, -1, -1, 2, [1, 2]⟩] 3)
                ∈ e.stack_indexes)) :=
  c1_round_trip [⟨0, -1, -1, 1, [1]⟩, ⟨4, -1, -1, 2, [1, 2]⟩] 3 (by decide)
    (by unfold EntryBounds; decide) (by decide) (by decide) (by decide) (by decide)
    (by decide)
